import Mathlib

/-!
Verification of the coredrift drift-evaluation and escalation engine.

Each Lean definition below is a shallow embedding of the corresponding Python
function in `src/wg_drift/`, translated directly from the source:

* `update_task_state`, `mark_pit_stop_created`  — `src/wg_drift/state.py`
* `match_path`, `match_any`                     — glob matcher (see note below)
* contract codec (`render_contract_toml`, `parse_contract`,
  `extract_contract`, `replace_contract_block`) — `src/wg_drift/contracts.py`
* `compute_drift`, `hardening_signals`          — `src/wg_drift/drift.py`
* `read_events_since`                           — `src/wg_drift/events.py`

Machine integers are modelled as `Int` (Python ints are unbounded), JSON
dictionaries as association lists or functions to `Option`, and file contents
as `List Char` (byte offsets are character offsets; the engine only writes
ASCII framing, so this is faithful for the framing the claims are about).
-/

namespace Coredrift

/-! ## Escalation store (`src/wg_drift/state.py`) -/

/-- Persisted per-task record, as stored under `state["tasks"][task_id]`.
Fields are `Option` because a JSON record can miss any key; `update_task_state`
always writes all four (the `updated_at` timestamp field is not modelled, as
no claim observes it and no code path reads it back). -/
structure TaskRec where
  score : Option String
  kinds : Option (List String)
  streak : Option Int
  pit_stop_created : Option Bool
deriving DecidableEq, Repr

/-- A JSON value stored under a task id: either a record (dict) or anything
else (`isinstance(prev, dict)` fails, and the code treats it as absent). -/
inductive TaskEntry where
  | record (r : TaskRec)
  | nonRec
deriving DecidableEq, Repr

/-- The escalation state: the `tasks` dict of `state.json`, modelled as a map
from task id to the stored JSON value. -/
structure EscState where
  tasks : String → Option TaskEntry

/-- The empty state (`{"tasks": {}}`). -/
def emptyEsc : EscState := ⟨fun _ => none⟩

/-- Return value of `update_task_state` (dataclass `TaskStateUpdate`). -/
structure TaskStateUpdate where
  task_id : String
  streak : Int
  pit_stop_due : Bool
  pit_stop_created : Bool
deriving DecidableEq, Repr

/-- Default record used when the entry is absent or not a dict (`prev = {}`). -/
def emptyRec : TaskRec := ⟨none, none, none, none⟩

/-- Embedding of `update_task_state` from `src/wg_drift/state.py`.
Mirrors the source line by line: `prev_score = str(prev.get("score") or "green")`
(an empty string is falsy in Python, hence the `s = ""` test),
`prev_streak = int(prev.get("streak") or 0)`,
`pit_stop_created = bool(prev.get("pit_stop_created", False))`, the
drifting/streak computation, and the write-back of the new record. -/
def update_task_state (state : EscState) (task_id : String) (score : String)
    (kinds : List String) (pit_stop_after : Int) : EscState × TaskStateUpdate :=
  let prev : TaskRec :=
    match state.tasks task_id with
    | some (TaskEntry.record r) => r
    | _ => emptyRec
  let prev_score : String :=
    match prev.score with
    | some s => if s = "" then "green" else s
    | none => "green"
  let prev_streak : Int := prev.streak.getD 0
  let created : Bool := prev.pit_stop_created.getD false
  let drifting : Bool := decide (score ≠ "green") && decide (0 < pit_stop_after)
  let prev_drifting : Bool := decide (prev_score ≠ "green") && decide (0 < pit_stop_after)
  let streak : Int :=
    if drifting && prev_drifting then prev_streak + 1
    else if drifting then 1
    else 0
  let due : Bool := drifting && decide (pit_stop_after ≤ streak) && !created
  ({ tasks := fun k =>
      if k = task_id then
        some (TaskEntry.record ⟨some score, some kinds, some streak, some created⟩)
      else state.tasks k },
   ⟨task_id, streak, due, created⟩)

/-- Embedding of `mark_pit_stop_created` from `src/wg_drift/state.py`:
fetch the record (empty dict when absent or not a dict), set
`pit_stop_created = True`, store it back. -/
def mark_pit_stop_created (state : EscState) (task_id : String) : EscState :=
  let prev : TaskRec :=
    match state.tasks task_id with
    | some (TaskEntry.record r) => r
    | _ => emptyRec
  { tasks := fun k =>
      if k = task_id then some (TaskEntry.record { prev with pit_stop_created := some true })
      else state.tasks k }

/-- Derived view: the previous score the engine would read for a task
(`str(prev.get("score") or "green")` with absent/non-dict entries as `{}`). -/
def prevScoreOf (state : EscState) (task_id : String) : String :=
  match state.tasks task_id with
  | some (TaskEntry.record r) =>
    (match r.score with
     | some s => if s = "" then "green" else s
     | none => "green")
  | _ => "green"

/-- Derived view: the previous streak the engine would read for a task. -/
def prevStreakOf (state : EscState) (task_id : String) : Int :=
  match state.tasks task_id with
  | some (TaskEntry.record r) => r.streak.getD 0
  | _ => 0

/-- Derived view: the `pit_stop_created` latch the engine would read
(`bool(prev.get("pit_stop_created", False))`). -/
def createdOf (state : EscState) (task_id : String) : Bool :=
  match state.tasks task_id with
  | some (TaskEntry.record r) => r.pit_stop_created.getD false
  | _ => false

/-- Fold a list of scores through `update_task_state`, collecting the
per-evaluation results (the consumer applies the engine once per report). -/
def runUpdates (state : EscState) (task_id : String) (scores : List String)
    (kinds : List String) (pit_stop_after : Int) : EscState × List TaskStateUpdate :=
  match scores with
  | [] => (state, [])
  | s :: rest =>
    let p := update_task_state state task_id s kinds pit_stop_after
    let q := runUpdates p.1 task_id rest kinds pit_stop_after
    (q.1, p.2 :: q.2)

/-! Helper lemmas about the escalation engine. -/

theorem update_streak_eq (state : EscState) (task_id : String) (score : String)
    (kinds : List String) (k : Int) :
    (update_task_state state task_id score kinds k).2.streak =
      if score ≠ "green" ∧ 0 < k then
        (if prevScoreOf state task_id ≠ "green" then prevStreakOf state task_id + 1 else 1)
      else 0 := by
  unfold update_task_state prevScoreOf prevStreakOf
  cases h : state.tasks task_id with
  | none =>
    by_cases hs : score = "green" <;> by_cases hk : (0:Int) < k <;>
      simp [h, hs, hk, emptyRec]
  | some e =>
    cases e with
    | nonRec =>
      by_cases hs : score = "green" <;> by_cases hk : (0:Int) < k <;>
        simp [h, hs, hk, emptyRec]
    | record r =>
      by_cases hs : score = "green" <;> by_cases hk : (0:Int) < k <;>
        cases hsc : r.score with
        | none => simp [h, hs, hk, hsc]
        | some s =>
          by_cases hss : s = "" <;> simp [h, hs, hk, hsc, hss]

theorem update_due_iff (state : EscState) (task_id : String) (score : String)
    (kinds : List String) (k : Int) :
    ((update_task_state state task_id score kinds k).2.pit_stop_due = true) ↔
      (score ≠ "green" ∧ 0 < k ∧
       k ≤ (update_task_state state task_id score kinds k).2.streak ∧
       createdOf state task_id = false) := by
  unfold update_task_state createdOf
  cases h : state.tasks task_id with
  | none =>
    simp [h, emptyRec]
    tauto
  | some e =>
    cases e with
    | nonRec =>
      simp [h, emptyRec]
      tauto
    | record r =>
      cases hc : r.pit_stop_created with
      | none => simp [h, hc]; tauto
      | some b => cases b <;> simp [h, hc] <;> tauto

theorem update_preserves_created (state : EscState) (task_id : String) (score : String)
    (kinds : List String) (k : Int) :
    createdOf (update_task_state state task_id score kinds k).1 task_id =
      createdOf state task_id := by
  unfold update_task_state createdOf
  cases h : state.tasks task_id with
  | none => simp [h, emptyRec]
  | some e =>
    cases e with
    | nonRec => simp [h, emptyRec]
    | record r => simp [h]

theorem update_returns_created (state : EscState) (task_id : String) (score : String)
    (kinds : List String) (k : Int) :
    (update_task_state state task_id score kinds k).2.pit_stop_created =
      createdOf state task_id := by
  unfold update_task_state createdOf
  cases h : state.tasks task_id with
  | none => simp [h, emptyRec]
  | some e =>
    cases e with
    | nonRec => simp [h, emptyRec]
    | record r => simp [h]

theorem mark_sets_created (state : EscState) (task_id : String) :
    createdOf (mark_pit_stop_created state task_id) task_id = true := by
  unfold mark_pit_stop_created createdOf
  cases h : state.tasks task_id with
  | none => simp [h]
  | some e =>
    cases e with
    | nonRec => simp [h]
    | record r => simp [h]

theorem due_false_of_created (state : EscState) (task_id : String) (score : String)
    (kinds : List String) (k : Int) (h : createdOf state task_id = true) :
    (update_task_state state task_id score kinds k).2.pit_stop_due = false := by
  by_contra hne
  have hd : (update_task_state state task_id score kinds k).2.pit_stop_due = true := by
    cases hh : (update_task_state state task_id score kinds k).2.pit_stop_due
    · exact absurd hh hne
    · rfl
  have := (update_due_iff state task_id score kinds k).mp hd
  rw [h] at this
  exact absurd this.2.2.2 (by simp)

theorem runUpdates_created_due (state : EscState) (task_id : String)
    (kinds : List String) (k : Int) (n : Nat) (h : createdOf state task_id = true) :
    (runUpdates state task_id (List.replicate n "yellow") kinds k).2.map
        (fun u => u.pit_stop_due) = List.replicate n false := by
  induction n generalizing state with
  | zero => simp [runUpdates]
  | succ m ih =>
    simp only [List.replicate, runUpdates, List.map]
    rw [due_false_of_created state task_id "yellow" kinds k h,
      ih _ (by rw [update_preserves_created]; exact h)]

/-- C1: `update_task_state` computes the streak as prevStreak+1 when both the
previous and the current score are non-green with pitStopAfter > 0, as 1 when
only the current score is non-green with pitStopAfter > 0, and as 0 otherwise
(including whenever pitStopAfter is 0 or negative); it reports `pit_stop_due`
exactly when currently drifting, the new streak is at least pitStopAfter, and
the latch is not already set.  With pitStopAfter = 3, three yellow evaluations
followed by a green one from a fresh state yield streaks 1,2,3,0 and
`pit_stop_due` false,false,true,false; and once the pit stop has been marked
created, `pit_stop_due` is never reported again during an unbroken non-green
run of any length. -/
theorem C1_streak_and_pit_stop_due :
    (∀ (state : EscState) (task_id score : String) (kinds : List String) (k : Int),
      (update_task_state state task_id score kinds k).2.streak =
        if score ≠ "green" ∧ 0 < k then
          (if prevScoreOf state task_id ≠ "green" then prevStreakOf state task_id + 1 else 1)
        else 0) ∧
    (∀ (state : EscState) (task_id score : String) (kinds : List String) (k : Int),
      ((update_task_state state task_id score kinds k).2.pit_stop_due = true) ↔
        (score ≠ "green" ∧ 0 < k ∧
         k ≤ (update_task_state state task_id score kinds k).2.streak ∧
         createdOf state task_id = false)) ∧
    ((runUpdates emptyEsc "t" ["yellow", "yellow", "yellow", "green"] [] 3).2.map
        (fun u => (u.streak, u.pit_stop_due)) =
      [(1, false), (2, false), (3, true), (0, false)]) ∧
    (∀ (state : EscState) (task_id : String) (kinds : List String) (k : Int) (n : Nat),
      (runUpdates (mark_pit_stop_created state task_id) task_id
          (List.replicate n "yellow") kinds k).2.map (fun u => u.pit_stop_due) =
        List.replicate n false) := by
  refine ⟨update_streak_eq, update_due_iff, ?_, ?_⟩
  · decide
  · intro state task_id kinds k n
    exact runUpdates_created_due _ _ _ _ _ (mark_sets_created state task_id)

/-- C2: `pit_stop_created` is a one-way latch.  `update_task_state` copies the
previous value into the new record (so the stored latch never changes across
an update, in particular not when the task returns to green), and it also
returns that copied value; `mark_pit_stop_created` only ever sets the latch to
true. -/
theorem C2_pit_stop_created_latch :
    (∀ (state : EscState) (task_id score : String) (kinds : List String) (k : Int),
      createdOf (update_task_state state task_id score kinds k).1 task_id =
        createdOf state task_id) ∧
    (∀ (state : EscState) (task_id score : String) (kinds : List String) (k : Int),
      (update_task_state state task_id score kinds k).2.pit_stop_created =
        createdOf state task_id) ∧
    (∀ (state : EscState) (task_id : String) (kinds : List String) (k : Int),
      createdOf (update_task_state state task_id "green" kinds k).1 task_id =
        createdOf state task_id) ∧
    (∀ (state : EscState) (task_id : String),
      createdOf (mark_pit_stop_created state task_id) task_id = true) :=
  ⟨update_preserves_created, update_returns_created,
   fun state task_id kinds k => update_preserves_created state task_id "green" kinds k,
   mark_sets_created⟩

/-- C10: a task with no prior entry (or a non-record entry) is treated as
previous score green, streak 0, latch false: the first non-green evaluation
with pitStopAfter > 0 yields streak 1 and reports the latch as false, and
`pit_stop_due` on that very first evaluation is true exactly when
pitStopAfter = 1. -/
theorem C10_fresh_task_first_evaluation (state : EscState) (task_id score : String)
    (kinds : List String) (k : Int)
    (hentry : state.tasks task_id = none ∨ state.tasks task_id = some TaskEntry.nonRec)
    (hscore : score ≠ "green") (hk : 0 < k) :
    (update_task_state state task_id score kinds k).2.streak = 1 ∧
    (update_task_state state task_id score kinds k).2.pit_stop_created = false ∧
    ((update_task_state state task_id score kinds k).2.pit_stop_due = true ↔ k = 1) := by
  have hprev : prevScoreOf state task_id = "green" := by
    unfold prevScoreOf
    rcases hentry with h | h <;> rw [h]
  have hcre : createdOf state task_id = false := by
    unfold createdOf
    rcases hentry with h | h <;> rw [h]
  have hstreak : (update_task_state state task_id score kinds k).2.streak = 1 := by
    rw [update_streak_eq]
    simp [hprev, hscore, hk]
  refine ⟨hstreak, ?_, ?_⟩
  · rw [update_returns_created, hcre]
  · rw [update_due_iff, hstreak]
    constructor
    · rintro ⟨-, -, hle, -⟩
      omega
    · intro hone
      exact ⟨hscore, hk, by omega, hcre⟩

/-- Witness for C10 at a concrete input: fresh state, score yellow,
pitStopAfter = 1 gives streak 1, latch false, and a due pit stop. -/
theorem C10_fresh_task_first_evaluation_witness :
    (emptyEsc.tasks "t" = none ∨ emptyEsc.tasks "t" = some TaskEntry.nonRec) ∧
    ("yellow" ≠ "green") ∧ ((0:Int) < 1) ∧
    ((update_task_state emptyEsc "t" "yellow" [] 1).2.streak = 1 ∧
     (update_task_state emptyEsc "t" "yellow" [] 1).2.pit_stop_created = false ∧
     ((update_task_state emptyEsc "t" "yellow" [] 1).2.pit_stop_due = true ↔ (1:Int) = 1)) :=
  ⟨Or.inl rfl, by decide, by decide,
   C10_fresh_task_first_evaluation emptyEsc "t" "yellow" [] 1 (Or.inl rfl) (by decide) (by decide)⟩

/-! ## Glob matcher (`wg_drift.globmatch`)

The module `src/wg_drift/globmatch.py` is not part of the repository snapshot:
only its unit tests (`src/tests/test_globmatch.py`) and its caller
(`src/wg_drift/drift.py`) are present.  The matcher below is therefore
modelled from spec §4.1, which gives its semantics precisely. -/

/-- Split a character list on a separator character (Python `s.split(sep)`:
the empty string yields one empty field, `n` separators yield `n+1` fields). -/
def splitSep (sep : Char) : List Char → List (List Char)
  | [] => [[]]
  | c :: rest =>
    if c = sep then [] :: splitSep sep rest
    else
      match splitSep sep rest with
      | l :: ls => (c :: l) :: ls
      | [] => [[c]]

/-- Modelled from the spec: shell-style wildcard match of one pattern segment
against one path segment (`globmatch.py` is missing from src).  Per §4.1,
within a segment `*` wildcards arbitrary characters and `?` wildcards one
character; other characters match literally. -/
def segMatch (pat seg : List Char) : Bool :=
  match pat, seg with
  | [], [] => true
  | [], _ :: _ => false
  | '*' :: ps, s =>
    segMatch ps s ||
      (match s with
       | [] => false
       | _ :: rest => segMatch ('*' :: ps) rest)
  | '?' :: _, [] => false
  | '?' :: ps, _ :: rest => segMatch ps rest
  | c :: ps, s =>
    match s with
    | [] => false
    | d :: rest => c = d && segMatch ps rest
termination_by (pat.length, seg.length)

/-- Modelled from the spec: segment-wise match of a path against a pattern
(`globmatch.py` is missing from src).  Per §4.1, a `**` pattern segment
matches zero or more whole path segments by backtracking (try consuming 0,
then 1, 2, … segments); any other pattern segment must match exactly one path
segment by `segMatch`; the whole pattern must match the whole path. -/
def segsMatch (pat path : List (List Char)) : Bool :=
  match pat, path with
  | [], [] => true
  | [], _ :: _ => false
  | p :: ps, path =>
    if p = "**".data then
      segsMatch ps path ||
        (match path with
         | [] => false
         | _ :: rest => segsMatch (p :: ps) rest)
    else
      match path with
      | [] => false
      | x :: xs => segMatch p x && segsMatch ps xs
termination_by (pat.length, path.length)

/-- Modelled from the spec: `match_path(path, pattern)` — both are split on
`/` into segments and matched segment-wise (§4.1; `globmatch.py` is missing
from src). -/
def match_path (path pattern : String) : Bool :=
  segsMatch (splitSep '/' pattern.data) (splitSep '/' path.data)

/-- Modelled from the spec: `match_any(path, patterns)` is true iff any
pattern matches (§4.1; `globmatch.py` is missing from src). -/
def match_any (path : String) (patterns : List String) : Bool :=
  patterns.any fun p => match_path path p

/-! ## Python string helpers shared by the embeddings -/

/-- Python's `str.strip` whitespace class, restricted to ASCII
(space, tab, newline, carriage return, vertical tab, form feed). -/
def isPySpace (c : Char) : Bool :=
  c = ' ' || c = '\t' || c = '\n' || c = '\r' || c = '\x0B' || c = '\x0C'

/-- Python `s.lstrip()`. -/
def pyLstrip (cs : List Char) : List Char := cs.dropWhile isPySpace

/-- Python `s.rstrip()`. -/
def pyRstrip (cs : List Char) : List Char := (cs.reverse.dropWhile isPySpace).reverse

/-- Python `s.strip()`. -/
def pyStrip (cs : List Char) : List Char := pyLstrip (pyRstrip cs)

theorem segsMatch_doubleStar_all (path : List (List Char)) :
    segsMatch ["**".data] path = true := by
  induction path with
  | nil => simp [segsMatch]
  | cons x xs ih => simp [segsMatch, ih]

/-- C3: a bare `**` pattern matches every path: for every path `P`,
`match_path P "**"` is true, and hence `match_any P ["**"]` is true. -/
theorem C3_doubleStar_matches_everything :
    (∀ P : String, match_path P "**" = true) ∧
    (∀ P : String, match_any P ["**"] = true) := by
  have h : ∀ P : String, match_path P "**" = true := by
    intro P
    unfold match_path
    have : splitSep '/' "**".data = ["**".data] := rfl
    rw [this, segsMatch_doubleStar_all]
  exact ⟨h, fun P => by simp [match_any, h P]⟩

/-! ## Event log (`src/wg_drift/events.py`)

`read_events_since` reads JSONL content from a byte offset.  The file content
is modelled as `List Char` (the log is written as compact ASCII JSON, so byte
offsets coincide with character offsets), a missing file as `none`, and the
stdlib JSON decode of one stripped line (`json.loads` + `isinstance(obj,
dict)`) as an abstract function `decodeLine` returning `none` for malformed
lines and for non-object values. -/

/-- Boolean test used when scanning for a newline. -/
def notNl (c : Char) : Bool := !(c = '\n')

/-- One `f.readline()` call: returns the line read (including its trailing
newline, when the line is newline-terminated) and the remaining content. -/
def readLine (cs : List Char) : List Char × List Char :=
  match cs with
  | [] => ([], [])
  | c :: rest =>
    if c = '\n' then ([c], rest)
    else ((c :: (readLine rest).1), (readLine rest).2)

theorem readLine_snd_length_le (cs : List Char) :
    (readLine cs).2.length ≤ cs.length := by
  induction cs with
  | nil => simp [readLine]
  | cons c rest ih =>
    by_cases h : c = '\n' <;> simp [readLine, h] <;> omega

theorem readLine_snd_length_lt (c : Char) (rest : List Char) :
    (readLine (c :: rest)).2.length < (c :: rest).length := by
  by_cases h : c = '\n'
  · simp [readLine, h]
  · have := readLine_snd_length_le rest
    simp [readLine, h]
    omega

section EventLog

variable {Event : Type}

/-- Embedding of the read loop of `read_events_since`: starting at position
`pos`, read lines until end of file, strip each line, skip blank lines, decode
the rest (appending only successfully decoded dict events), and report the
final file position (`f.tell()`). -/
def readLoopPos (decodeLine : List Char → Option Event) :
    List Char → Nat → List Event × Nat
  | [], pos => ([], pos)
  | c :: rest, pos =>
    let r := readLoopPos decodeLine (readLine (c :: rest)).2
      (pos + (readLine (c :: rest)).1.length)
    if pyStrip (readLine (c :: rest)).1 = [] then r
    else
      match decodeLine (pyStrip (readLine (c :: rest)).1) with
      | some e => (e :: r.1, r.2)
      | none => r
termination_by cs _ => cs.length
decreasing_by simpa using readLine_snd_length_lt c rest

/-- Embedding of `read_events_since` from `src/wg_drift/events.py`: a missing
file returns `([], offset)`; otherwise, if `offset` exceeds the file size,
restart from 0, then read whole lines to end of file. -/
def read_events_since (decodeLine : List Char → Option Event)
    (content : Option (List Char)) (offset : Nat) : List Event × Nat :=
  match content with
  | none => ([], offset)
  | some cs =>
    let size := cs.length
    let off := if offset > size then 0 else offset
    readLoopPos decodeLine (cs.drop off) off

/-- Specification-side view of the loop: split the content into lines, strip
each, skip blanks, decode the rest. -/
def lineEvents (decodeLine : List Char → Option Event)
    (lines : List (List Char)) : List Event :=
  lines.filterMap fun l =>
    if pyStrip l = [] then none else decodeLine (pyStrip l)

end EventLog

theorem dropWhile_length_le (p : Char → Bool) (l : List Char) :
    (l.dropWhile p).length ≤ l.length := by
  induction l with
  | nil => simp
  | cons c rest ih =>
    by_cases h : p c = true <;> simp [List.dropWhile_cons, h] <;> omega

theorem readLine_of_drop_nil (cs : List Char) (h : cs.dropWhile notNl = []) :
    readLine cs = (cs, []) := by
  induction cs with
  | nil => simp [readLine]
  | cons c rest ih =>
    by_cases hc : c = '\n'
    · rw [List.dropWhile_cons, if_neg (by simp [notNl, hc])] at h
      exact absurd h (by simp)
    · rw [List.dropWhile_cons, if_pos (by simp [notNl, hc])] at h
      simp [readLine, hc, ih h]

theorem readLine_of_drop_cons (cs : List Char) (x : Char) (b : List Char)
    (h : cs.dropWhile notNl = x :: b) :
    readLine cs = (cs.takeWhile notNl ++ ['\n'], b) := by
  induction cs with
  | nil => simp [List.dropWhile] at h
  | cons c rest ih =>
    by_cases hc : c = '\n'
    · rw [List.dropWhile_cons, if_neg (by simp [notNl, hc])] at h
      injection h with h1 h2
      simp [readLine, hc, List.takeWhile_cons, notNl, ← h2]
    · rw [List.dropWhile_cons, if_pos (by simp [notNl, hc])] at h
      simp [readLine, hc, List.takeWhile_cons, notNl, ih h]

theorem dropWhile_notNl_head (cs : List Char) (x : Char) (b : List Char)
    (h : cs.dropWhile notNl = x :: b) : x = '\n' := by
  induction cs with
  | nil => simp [List.dropWhile] at h
  | cons c rest ih =>
    by_cases hc : c = '\n'
    · rw [List.dropWhile_cons, if_neg (by simp [notNl, hc])] at h
      injection h with h1 h2
      exact h1 ▸ hc
    · rw [List.dropWhile_cons, if_pos (by simp [notNl, hc])] at h
      exact ih h

theorem splitNl_of_drop_nil (cs : List Char) (h : cs.dropWhile notNl = []) :
    splitSep '\n' cs = [cs] := by
  induction cs with
  | nil => simp [splitSep]
  | cons c rest ih =>
    by_cases hc : c = '\n'
    · rw [List.dropWhile_cons, if_neg (by simp [notNl, hc])] at h
      exact absurd h (by simp)
    · rw [List.dropWhile_cons, if_pos (by simp [notNl, hc])] at h
      simp [splitSep, hc, ih h]

theorem splitNl_of_drop_cons (cs : List Char) (x : Char) (b : List Char)
    (h : cs.dropWhile notNl = x :: b) :
    splitSep '\n' cs = cs.takeWhile notNl :: splitSep '\n' b := by
  induction cs with
  | nil => simp [List.dropWhile] at h
  | cons c rest ih =>
    by_cases hc : c = '\n'
    · rw [List.dropWhile_cons, if_neg (by simp [notNl, hc])] at h
      injection h with h1 h2
      simp [splitSep, hc, List.takeWhile_cons, notNl, ← h2]
    · rw [List.dropWhile_cons, if_pos (by simp [notNl, hc])] at h
      simp [splitSep, hc, List.takeWhile_cons, notNl, ih h]

theorem pyStrip_append_newline (a : List Char) :
    pyStrip (a ++ ['\n']) = pyStrip a := by
  unfold pyStrip pyRstrip
  simp [List.dropWhile_cons, isPySpace]

theorem readLoopPos_eq {Event : Type} (decodeLine : List Char → Option Event)
    (cs : List Char) (pos : Nat) :
    readLoopPos decodeLine cs pos =
      (lineEvents decodeLine (splitSep '\n' cs), pos + cs.length) := by
  match cs with
  | [] => simp [readLoopPos, lineEvents, splitSep, pyStrip, pyLstrip, pyRstrip]
  | c :: rest =>
    cases hd : (c :: rest).dropWhile notNl with
    | nil =>
      have hr := readLine_of_drop_nil _ hd
      have hs := splitNl_of_drop_nil _ hd
      have ih := readLoopPos_eq decodeLine [] (pos + (c :: rest).length)
      simp only [readLoopPos, hr, hs]
      by_cases hps : pyStrip (c :: rest) = []
      · simp [ih, lineEvents, hps]
      · cases hdec : decodeLine (pyStrip (c :: rest)) <;>
          simp [ih, lineEvents, hps, hdec]
    | cons x b =>
      have hx : x = '\n' := dropWhile_notNl_head _ _ _ hd
      subst hx
      have hr := readLine_of_drop_cons _ _ _ hd
      have hs := splitNl_of_drop_cons _ _ _ hd
      have hlenlt : b.length < (c :: rest).length := by
        have h1 := dropWhile_length_le notNl (c :: rest)
        rw [hd] at h1
        simp at h1 ⊢
        omega
      have ih := readLoopPos_eq decodeLine b
        (pos + ((c :: rest).takeWhile notNl ++ ['\n']).length)
      have hjoin : (c :: rest).takeWhile notNl ++ '\n' :: b = c :: rest := by
        have := List.takeWhile_append_dropWhile (p := notNl) (l := c :: rest)
        rw [hd] at this
        exact this
      have hlen : ((c :: rest).takeWhile notNl).length + 1 + b.length =
          rest.length + 1 := by
        have := congrArg List.length hjoin
        simp at this
        omega
      simp only [readLoopPos, hr, hs, pyStrip_append_newline, ih]
      by_cases hps : pyStrip ((c :: rest).takeWhile notNl) = []
      · simp [lineEvents, hps]
        omega
      · cases hdec : decodeLine (pyStrip ((c :: rest).takeWhile notNl)) <;>
          simp [lineEvents, hps, hdec] <;> omega
termination_by cs.length

/-- C9: for an existing log file, `read_events_since` restarts from offset 0
whenever the given offset exceeds the file size; it never fails on malformed
lines — the returned events are exactly the per-line decodes of the stripped
non-blank lines after the effective offset, with undecodable (non-JSON or
non-object) lines skipped; and the returned byte offset equals the file
position after reading every whole line up to end of file, i.e. the file
size. -/
theorem C9_read_events_since {Event : Type} (decodeLine : List Char → Option Event) :
    (∀ (cs : List Char) (offset : Nat), cs.length < offset →
      read_events_since decodeLine (some cs) offset =
        read_events_since decodeLine (some cs) 0) ∧
    (∀ (cs : List Char) (offset : Nat), offset ≤ cs.length →
      read_events_since decodeLine (some cs) offset =
        (lineEvents decodeLine (splitSep '\n' (cs.drop offset)), cs.length)) ∧
    (∀ (cs : List Char) (offset : Nat),
      (read_events_since decodeLine (some cs) offset).2 = cs.length) := by
  have hchar : ∀ (cs : List Char) (offset : Nat), offset ≤ cs.length →
      read_events_since decodeLine (some cs) offset =
        (lineEvents decodeLine (splitSep '\n' (cs.drop offset)), cs.length) := by
    intro cs offset hle
    show readLoopPos decodeLine (cs.drop (if offset > cs.length then 0 else offset))
        (if offset > cs.length then 0 else offset) =
      (lineEvents decodeLine (splitSep '\n' (cs.drop offset)), cs.length)
    rw [if_neg (by omega), readLoopPos_eq]
    have h2 : offset + (cs.drop offset).length = cs.length := by
      simp
      omega
    rw [h2]
  refine ⟨?_, hchar, ?_⟩
  · intro cs offset hgt
    show readLoopPos decodeLine (cs.drop (if offset > cs.length then 0 else offset))
        (if offset > cs.length then 0 else offset) =
      readLoopPos decodeLine (cs.drop (if 0 > cs.length then 0 else 0))
        (if 0 > cs.length then 0 else 0)
    rw [if_pos (by omega), if_neg (by omega)]
  · intro cs offset
    show (readLoopPos decodeLine (cs.drop (if offset > cs.length then 0 else offset))
        (if offset > cs.length then 0 else offset)).2 = cs.length
    by_cases hle : offset ≤ cs.length
    · rw [if_neg (by omega), readLoopPos_eq]
      simp
      omega
    · rw [if_pos (by omega), readLoopPos_eq]
      simp

/-- Sample log content used by the C9 witness: one valid event line, one
malformed line, one blank line. -/
def eventSample : List Char := "{}\nbad\n\n".data

/-- Sample line decoder used by the C9 witness: accepts exactly the line
`{}`. -/
def decodeSample (l : List Char) : Option Nat :=
  if l = "{}".data then some 0 else none

/-- Witness for C9 at concrete inputs: reading the sample log from offset 0
yields exactly the one well-formed event and the file size as new offset;
an offset past the end compares equal to a read from 0. -/
theorem C9_read_events_since_witness :
    (eventSample.length < 99 ∧
      read_events_since decodeSample (some eventSample) 99 =
        read_events_since decodeSample (some eventSample) 0) ∧
    (0 ≤ eventSample.length ∧
      read_events_since decodeSample (some eventSample) 0 =
        (lineEvents decodeSample (splitSep '\n' (eventSample.drop 0)),
         eventSample.length)) ∧
    (read_events_since decodeSample (some eventSample) 3).2 = eventSample.length :=
  ⟨⟨by decide, (C9_read_events_since decodeSample).1 eventSample 99 (by decide)⟩,
   ⟨by decide, (C9_read_events_since decodeSample).2.1 eventSample 0 (by decide)⟩,
   (C9_read_events_since decodeSample).2.2 eventSample 3⟩

/-! ## Contract codec (`src/wg_drift/contracts.py`): fenced-block location

The regex `_FENCE_RE` matches (leftmost, with a non-greedy body)
three backticks, the info string `wg-contract`, `\s*\n`, the body, and a
newline followed by three closing backticks.  The model below implements
exactly that deterministic search over `List Char`. -/

/-- Boolean prefix test on character lists. -/
def listStartsWith : List Char → List Char → Bool
  | [], _ => true
  | _ :: _, [] => false
  | p :: ps, c :: cs => p = c && listStartsWith ps cs

/-- Split at the first occurrence of `pat`: returns the text before the
occurrence and the text after it, or `none` when `pat` does not occur. -/
def splitFirstOcc (pat : List Char) : List Char → Option (List Char × List Char)
  | [] => none
  | c :: rest =>
    if listStartsWith pat (c :: rest) then some ([], (c :: rest).drop pat.length)
    else
      match splitFirstOcc pat rest with
      | some p => some (c :: p.1, p.2)
      | none => none

/-- The opening fence literal of `_FENCE_RE`. -/
def FENCE_OPEN : List Char := "```wg-contract".data

/-- The body terminator of `_FENCE_RE` (a newline followed by the closing
fence). -/
def FENCE_CLOSE : List Char := "\n```".data

/-- The suffix of `w` after its last newline. -/
def afterLastNl (w : List Char) : List Char := (w.reverse.takeWhile notNl).reverse

/-- Regex `\s*\n` with Python's greedy-then-backtrack semantics: take the
maximal whitespace run; the piece matches iff that run contains a newline,
and it consumes through the last newline of the run. -/
def dropFenceWs (cs : List Char) : Option (List Char) :=
  if '\n' ∈ cs.takeWhile isPySpace then
    some (afterLastNl (cs.takeWhile isPySpace) ++ cs.dropWhile isPySpace)
  else none

/-- Try to match `_FENCE_RE` at the start of `t`: on success return the body
group and the text after the whole match. -/
def tryMatchAt (t : List Char) : Option (List Char × List Char) :=
  if listStartsWith FENCE_OPEN t then
    match dropFenceWs (t.drop FENCE_OPEN.length) with
    | some rest => splitFirstOcc FENCE_CLOSE rest
    | none => none
  else none

/-- Leftmost `_FENCE_RE.search`: returns (text before the match, body group,
text after the match), or `none` when there is no match. -/
def searchFence : List Char → Option (List Char × List Char × List Char)
  | [] => none
  | c :: cs =>
    match tryMatchAt (c :: cs) with
    | some p => some ([], p.1, p.2)
    | none =>
      match searchFence cs with
      | some q => some (c :: q.1, q.2.1, q.2.2)
      | none => none

/-- Embedding of `extract_contract`: the stripped body of the first
wg-contract fenced block, or `none` when there is no block. -/
def extract_contract (description : String) : Option String :=
  match searchFence description.data with
  | some q => some (String.mk (pyStrip q.2.1))
  | none => none

/-! ## Drift engine (`src/wg_drift/drift.py`) -/

/-- A value of the simple table-only TOML dialect used by contracts (the
fragment `render_contract_toml` emits: strings, integers, booleans, and
arrays of strings). -/
inductive TomlValue where
  | str (s : String)
  | int (n : Int)
  | bool (b : Bool)
  | arr (xs : List String)
deriving DecidableEq, Repr

/-- Typed contract (`TaskContract` dataclass in `src/wg_drift/contracts.py`). -/
structure TaskContract where
  schema : Int
  mode : String
  objective : String
  non_goals : List String
  touch : List String
  acceptance : List String
  max_files : Option Int
  max_loc : Option Int
  pit_stop_after : Option Int
  auto_followups : Bool
deriving DecidableEq, Repr

/-- The `details` payload of a finding: a one-key dict of paths/strings, a
one-key dict holding a number, or a raw contract table. -/
inductive Details where
  | paths (key : String) (ps : List String)
  | num (key : String) (n : Int)
  | table (t : List (String × TomlValue))
deriving DecidableEq, Repr

/-- The `Finding` dataclass of `src/wg_drift/drift.py`. -/
structure Finding where
  kind : String
  severity : String
  summary : String
  details : Option Details
deriving DecidableEq, Repr

/-- One recommendation dict (`commands` is present only for some kinds). -/
structure Recommendation where
  priority : String
  action : String
  rationale : String
  commands : Option (List String)
deriving DecidableEq, Repr

/-- The `WorkingChanges` dataclass of `src/wg_drift/git_tools.py`. -/
structure WorkingChanges where
  changed_files : List String
  loc_changed : Int
  added_lines : List String
deriving DecidableEq, Repr

/-- The telemetry dict: `files_changed` and `loc_changed` always present,
kind-specific counters present only when the corresponding branch fired. -/
structure Telemetry where
  files_changed : Int
  loc_changed : Int
  out_of_scope_files : Option Int
  dependency_files : Option (List String)
  hardening_signals : Option (List String)
deriving DecidableEq, Repr

/-- The `contract` key of the report: `contract_raw or (asdict(contract) if
contract else None)` — a non-empty raw table wins, else the typed contract. -/
inductive ReportContract where
  | raw (t : List (String × TomlValue))
  | typed (c : TaskContract)
deriving DecidableEq, Repr

/-- The report returned by `compute_drift`. -/
structure DriftReport where
  task_id : String
  task_title : String
  git_root : Option String
  score : String
  contract : Option ReportContract
  telemetry : Telemetry
  findings : List Finding
  recommendations : List Recommendation
deriving DecidableEq, Repr

/-- Python `s.lower()`, restricted to ASCII case mapping. -/
def pyLower (cs : List Char) : List Char := cs.map Char.toLower

/-- Boolean substring test (Python `pat in s`; the empty pattern is in every
string). -/
def containsSub (pat : List Char) : List Char → Bool
  | [] => listStartsWith pat []
  | c :: rest => listStartsWith pat (c :: rest) || containsSub pat rest

/-- Stable de-duplication keeping the first occurrence (the `seen` set loop
of `_hardening_signals`). -/
def dedupFirstAux (seen : List String) : List String → List String
  | [] => []
  | x :: rest =>
    if x ∈ seen then dedupFirstAux seen rest
    else x :: dedupFirstAux (x :: seen) rest

/-- Stable de-duplication of a string list, first occurrence wins. -/
def dedupFirst (xs : List String) : List String := dedupFirstAux [] xs

/-- The fixed hardening vocabulary (`needles` in `_hardening_signals`). -/
def hardeningNeedles : List String :=
  ["fallback", "retry", "backoff", "timeout", "graceful", "guardrail",
   "defensive", "best effort", "silently", "swallow"]

/-- Signals produced by one added line, in the source's append order: the
broad-exception check, the `catch (` check, then the needle loop. -/
def lineSignals (line : String) : List String :=
  let lower := pyLower line.data
  (if containsSub "except exception".data lower || pyStrip lower = "except:".data then
    ["broad exception handling"] else []) ++
  (if containsSub "catch (".data lower then ["catch added"] else []) ++
  hardeningNeedles.filter (fun n => containsSub n.data lower)

/-- Embedding of `_hardening_signals` from `src/wg_drift/drift.py`. -/
def hardening_signals (added_lines : List String) : List String :=
  dedupFirst ((added_lines.map lineSignals).flatten)

/-- The `_DEPENDENCY_FILES` set of `src/wg_drift/drift.py`. -/
def DEPENDENCY_FILES : List String :=
  ["package.json", "package-lock.json", "pnpm-lock.yaml", "yarn.lock",
   "bun.lockb", "Cargo.toml", "Cargo.lock", "go.mod", "go.sum",
   "requirements.txt", "requirements-dev.txt", "pyproject.toml", "Pipfile",
   "Pipfile.lock", "poetry.lock", "Gemfile", "Gemfile.lock"]

/-- Python `s.startswith(pre)`. -/
def startsWithStr (pre s : String) : Bool := listStartsWith pre.data s.data

/-- The per-kind recommendation table of `compute_drift` (the if/elif chain
over `f.kind`, including the `kind.startswith("churn_")` arm). -/
def recFor (kind : String) : Option Recommendation :=
  if kind = "missing_contract" then
    some ⟨"high", "Add a wg-contract block to the task description",
      "Without an explicit contract, agents will improvise and scope will drift.",
      some ["coredrift ensure-contracts --apply"]⟩
  else if kind = "invalid_contract" then
    some ⟨"high", "Fix the wg-contract block TOML so it parses",
      "Coredrift can only enforce/advise against drift when it can read the contract.",
      none⟩
  else if kind = "scope_drift" then
    some ⟨"high", "Revert out-of-scope file changes or expand touch globs",
      "Out-of-scope edits are the fastest path to unintended refactors and long-term performance regressions.",
      some ["coredrift contract set-touch --task <id> <glob...>"]⟩
  else if kind = "hardening_in_core" then
    some ⟨"high", "Move guardrails/fallbacks into a harden follow-up task",
      "Core tasks should ship the planned behavior; hardening is a separate mode to avoid accidental scope inflation.",
      none⟩
  else if kind = "dependency_drift" then
    some ⟨"medium", "Confirm the dependency change is intentional; otherwise revert",
      "New dependencies and lockfile churn are sticky and often not required for the core objective.",
      none⟩
  else if startsWithStr "churn_" kind then
    some ⟨"medium", "Split the task or adjust max_files/max_loc budgets in the contract",
      "High churn correlates with spec drift and hidden refactors; smaller tasks keep the graph in sync.",
      none⟩
  else none

/-- The final de-duplication of recommendations by action text, first
occurrence wins. -/
def dedupByActionAux (seen : List String) : List Recommendation → List Recommendation
  | [] => []
  | r :: rest =>
    if r.action ∈ seen then dedupByActionAux seen rest
    else r :: dedupByActionAux (r.action :: seen) rest

/-- De-duplicate recommendations by action text, first occurrence wins. -/
def dedupByAction (rs : List Recommendation) : List Recommendation :=
  dedupByActionAux [] rs

/-- Comma join used in finding summaries (Python `", ".join(xs)`). -/
def joinComma (xs : List String) : String := String.intercalate ", " xs

/-- Embedding of `compute_drift` from `src/wg_drift/drift.py`. -/
def compute_drift (task_id task_title : String) (description : String)
    (contract : Option TaskContract)
    (contract_raw : Option (List (String × TomlValue)))
    (git_root : Option String) (changes : Option WorkingChanges) : DriftReport :=
  let drift_files : List String :=
    match changes with
    | some ch => ch.changed_files.filter
        (fun p => !(startsWithStr ".workgraph/" p || startsWithStr ".git/" p))
    | none => []
  let loc_changed : Int := match changes with | some ch => ch.loc_changed | none => 0
  let findings : List Finding :=
    match contract with
    | none =>
      if (extract_contract description).isSome then
        [⟨"invalid_contract", "warn",
          "wg-contract block present but could not be parsed",
          match contract_raw with
          | some t => if t = [] then none else some (Details.table t)
          | none => none⟩]
      else
        [⟨"missing_contract", "warn",
          "No wg-contract block found in task description", none⟩]
    | some c =>
      if c.mode = "core" then
        (match changes with
         | some _ =>
           if c.touch ≠ [] then
             (let oos := drift_files.filter (fun p => !match_any p c.touch)
              if oos ≠ [] then
                [⟨"scope_drift", "warn",
                  toString oos.length ++ " files outside touch globs",
                  some (Details.paths "out_of_scope" (oos.take 50))⟩]
              else [])
           else []
         | none => []) ++
        (match changes with
         | some _ =>
           (let dep := drift_files.filter (fun p => DEPENDENCY_FILES.contains p)
            if dep ≠ [] then
              [⟨"dependency_drift", "warn",
                "Dependency/lock files changed: " ++ joinComma dep,
                some (Details.paths "dep_files" dep)⟩]
            else [])
         | none => []) ++
        (match changes with
         | some _ =>
           (match c.max_files with
            | some mf =>
              if (drift_files.length : Int) > mf then
                [⟨"churn_files", "warn",
                  "High file churn: " ++ toString drift_files.length ++
                    " files (max_files=" ++ toString mf ++ ")",
                  some (Details.paths "changed_files" (drift_files.take 100))⟩]
              else []
            | none => [])
         | none => []) ++
        (match changes with
         | some ch =>
           (match c.max_loc with
            | some ml =>
              if ch.loc_changed > ml then
                [⟨"churn_loc", "warn",
                  "High LOC churn: " ++ toString ch.loc_changed ++
                    " lines (max_loc=" ++ toString ml ++ ")",
                  some (Details.num "loc_changed" ch.loc_changed)⟩]
              else []
            | none => [])
         | none => []) ++
        (match changes with
         | some ch =>
           (let signals := hardening_signals ch.added_lines
            if signals ≠ [] then
              [⟨"hardening_in_core", "warn",
                "Possible hardening/fallback additions in core: " ++
                  joinComma (signals.take 6),
                some (Details.paths "signals" signals)⟩]
            else [])
         | none => [])
      else []
  let telemetry : Telemetry :=
    { files_changed := (drift_files.length : Int)
      loc_changed := loc_changed
      out_of_scope_files :=
        match contract, changes with
        | some c, some _ =>
          if c.mode = "core" ∧ c.touch ≠ [] ∧
              drift_files.filter (fun p => !match_any p c.touch) ≠ [] then
            some ((drift_files.filter (fun p => !match_any p c.touch)).length : Int)
          else none
        | _, _ => none
      dependency_files :=
        match contract, changes with
        | some c, some _ =>
          if c.mode = "core" ∧
              drift_files.filter (fun p => DEPENDENCY_FILES.contains p) ≠ [] then
            some (drift_files.filter (fun p => DEPENDENCY_FILES.contains p))
          else none
        | _, _ => none
      hardening_signals :=
        match contract, changes with
        | some c, some ch =>
          if c.mode = "core" ∧ hardening_signals ch.added_lines ≠ [] then
            some (hardening_signals ch.added_lines)
          else none
        | _, _ => none }
  let score : String :=
    if findings.any (fun f => f.severity = "error") then "red"
    else if findings.any (fun f => f.severity = "warn") then "yellow"
    else "green"
  { task_id := task_id
    task_title := task_title
    git_root := git_root
    score := score
    contract :=
      match contract_raw with
      | some t =>
        if t = [] then
          (match contract with
           | some c => some (ReportContract.typed c)
           | none => none)
        else some (ReportContract.raw t)
      | none =>
        match contract with
        | some c => some (ReportContract.typed c)
        | none => none
    telemetry := telemetry
    findings := findings
    recommendations := dedupByAction (findings.filterMap (fun f => recFor f.kind)) }

/-- C6: when no typed contract is supplied, `compute_drift` emits exactly one
contract finding — warn `missing_contract` when the description has no
wg-contract fenced block, else warn `invalid_contract` carrying the raw
payload (the parse error dict, or nothing when that payload is empty/absent);
the score is yellow, and the recommendation list is exactly the one matching
recommendation (in the no-block case, the high-priority recommendation to add
a contract block). -/
theorem C6_no_contract_single_finding (task_id task_title description : String)
    (contract_raw : Option (List (String × TomlValue)))
    (git_root : Option String) (changes : Option WorkingChanges) :
    ((compute_drift task_id task_title description none contract_raw git_root
        changes).findings =
      if (extract_contract description).isSome then
        [⟨"invalid_contract", "warn",
          "wg-contract block present but could not be parsed",
          match contract_raw with
          | some t => if t = [] then none else some (Details.table t)
          | none => none⟩]
      else
        [⟨"missing_contract", "warn",
          "No wg-contract block found in task description", none⟩]) ∧
    (compute_drift task_id task_title description none contract_raw git_root
        changes).score = "yellow" ∧
    ((compute_drift task_id task_title description none contract_raw git_root
        changes).recommendations =
      if (extract_contract description).isSome then
        [⟨"high", "Fix the wg-contract block TOML so it parses",
          "Coredrift can only enforce/advise against drift when it can read the contract.",
          none⟩]
      else
        [⟨"high", "Add a wg-contract block to the task description",
          "Without an explicit contract, agents will improvise and scope will drift.",
          some ["coredrift ensure-contracts --apply"]⟩]) := by
  cases h : extract_contract description with
  | none =>
    refine ⟨?_, ?_, ?_⟩ <;>
      simp [compute_drift, h, recFor, dedupByAction, dedupByActionAux]
  | some body =>
    refine ⟨?_, ?_, ?_⟩ <;>
      simp [compute_drift, h, recFor, dedupByAction, dedupByActionAux]

/-- C7: with a parsed contract whose mode is not `core`, `compute_drift`
emits no findings at all (in particular none of the scope/dependency/churn/
hardening kinds), the score is green, and there are no recommendations,
regardless of the supplied change summary. -/
theorem C7_non_core_mode_green (task_id task_title description : String)
    (c : TaskContract) (contract_raw : Option (List (String × TomlValue)))
    (git_root : Option String) (changes : Option WorkingChanges)
    (h : c.mode ≠ "core") :
    (compute_drift task_id task_title description (some c) contract_raw git_root
        changes).findings = [] ∧
    (compute_drift task_id task_title description (some c) contract_raw git_root
        changes).score = "green" ∧
    (compute_drift task_id task_title description (some c) contract_raw git_root
        changes).recommendations = [] := by
  refine ⟨?_, ?_, ?_⟩ <;>
    simp [compute_drift, h, dedupByAction, dedupByActionAux]

/-- A non-core contract used by the C7 witness. -/
def hardenContract : TaskContract :=
  ⟨1, "harden", "obj", [], ["src/**"], [], some 1, some 1, some 3, true⟩

/-- A change summary used by the C7 and C8 witnesses. -/
def sampleChanges : WorkingChanges :=
  ⟨["a.py", "pyproject.toml"], 42, ["retry with fallback"]⟩

/-- Witness for C7 at a concrete input: a `harden`-mode contract with changes
that would trip every core check still yields no findings and a green score. -/
theorem C7_non_core_mode_green_witness :
    hardenContract.mode ≠ "core" ∧
    ((compute_drift "t" "t" "" (some hardenContract) none none
        (some sampleChanges)).findings = [] ∧
     (compute_drift "t" "t" "" (some hardenContract) none none
        (some sampleChanges)).score = "green" ∧
     (compute_drift "t" "t" "" (some hardenContract) none none
        (some sampleChanges)).recommendations = []) :=
  ⟨by decide,
   C7_non_core_mode_green "t" "t" "" hardenContract none none
     (some sampleChanges) (by decide)⟩

/-- A core contract with zero churn budgets, used to refute C8 as stated. -/
def c8Contract : TaskContract :=
  ⟨1, "core", "x", [], [], [], some 0, some 0, none, true⟩

/-- A one-file, one-line change summary, used to refute C8 as stated. -/
def c8Changes : WorkingChanges := ⟨["a.py"], 1, []⟩

/-- Counterexample to C8 as stated: with `max_files = 0` and `max_loc = 0`,
one changed file yields the two distinct finding kinds `churn_files` and
`churn_loc`, but only one recommendation survives (both kinds map to the same
action text, and de-duplication by action collapses them), so the
recommendation list does not contain exactly one recommendation per distinct
finding kind present. -/
theorem C8_counterexample :
    ((compute_drift "t" "t" "" (some c8Contract) none none
        (some c8Changes)).findings.map (fun f => f.kind) =
      ["churn_files", "churn_loc"]) ∧
    (compute_drift "t" "t" "" (some c8Contract) none none
        (some c8Changes)).recommendations.length = 1 ∧
    ¬((compute_drift "t" "t" "" (some c8Contract) none none
          (some c8Changes)).recommendations.length =
        (dedupFirst ((compute_drift "t" "t" "" (some c8Contract) none none
          (some c8Changes)).findings.map (fun f => f.kind))).length) := by
  refine ⟨?_, ?_, ?_⟩ <;> decide

theorem dedupByActionAux_filterMap_dedup (f : String → Option Recommendation)
    (xs : List String) (A S : List String)
    (hinv : ∀ k ∈ S, ∀ r, f k = some r → r.action ∈ A) :
    dedupByActionAux A (xs.filterMap f) =
      dedupByActionAux A ((dedupFirstAux S xs).filterMap f) := by
  induction xs generalizing A S with
  | nil => rfl
  | cons x rest ih =>
    by_cases hx : x ∈ S
    · cases hfx : f x with
      | none =>
        simp only [List.filterMap_cons, hfx, dedupFirstAux, if_pos hx]
        exact ih A S hinv
      | some r =>
        have hra : r.action ∈ A := hinv x hx r hfx
        simp only [List.filterMap_cons, hfx, dedupFirstAux, if_pos hx,
          dedupByActionAux, if_pos hra]
        exact ih A S hinv
    · cases hfx : f x with
      | none =>
        simp only [List.filterMap_cons, hfx, dedupFirstAux, if_neg hx]
        exact ih A (x :: S) (by
          intro k hk r hr
          rcases List.mem_cons.mp hk with hke | hks
          · rw [hke] at hr
            rw [hfx] at hr
            exact absurd hr (by simp)
          · exact hinv k hks r hr)
      | some r =>
        by_cases hra : r.action ∈ A
        · simp only [List.filterMap_cons, hfx, dedupFirstAux, if_neg hx,
            dedupByActionAux, if_pos hra]
          exact ih A (x :: S) (by
            intro k hk r2 hr2
            rcases List.mem_cons.mp hk with hke | hks
            · rw [hke] at hr2
              rw [hfx] at hr2
              cases hr2
              exact hra
            · exact hinv k hks r2 hr2)
        · simp only [List.filterMap_cons, hfx, dedupFirstAux, if_neg hx,
            dedupByActionAux, if_neg hra]
          congr 1
          exact ih (r.action :: A) (x :: S) (by
            intro k hk r2 hr2
            rcases List.mem_cons.mp hk with hke | hks
            · rw [hke] at hr2
              rw [hfx] at hr2
              cases hr2
              exact List.mem_cons_self _ _
            · exact List.mem_cons_of_mem _ (hinv k hks r2 hr2))

/-- C8 (amended): the recommendation list equals the result of taking the
distinct finding kinds present (first occurrence order), mapping each kind to
its recommendation, and de-duplicating by action text with the first
occurrence winning — so two kinds that share an action text (the two churn
kinds) collapse into one recommendation rather than one each; priorities are
high for missing_contract, invalid_contract, scope_drift and
hardening_in_core, and medium for dependency_drift and the churn kinds. -/
theorem C8_amended_recommendations (task_id task_title description : String)
    (contract : Option TaskContract)
    (contract_raw : Option (List (String × TomlValue)))
    (git_root : Option String) (changes : Option WorkingChanges) :
    ((compute_drift task_id task_title description contract contract_raw
        git_root changes).recommendations =
      dedupByAction ((dedupFirst ((compute_drift task_id task_title description
        contract contract_raw git_root changes).findings.map
          (fun f => f.kind))).filterMap recFor)) ∧
    (recFor "missing_contract").map (fun r => r.priority) = some "high" ∧
    (recFor "invalid_contract").map (fun r => r.priority) = some "high" ∧
    (recFor "scope_drift").map (fun r => r.priority) = some "high" ∧
    (recFor "hardening_in_core").map (fun r => r.priority) = some "high" ∧
    (recFor "dependency_drift").map (fun r => r.priority) = some "medium" ∧
    (recFor "churn_files").map (fun r => r.priority) = some "medium" ∧
    (recFor "churn_loc").map (fun r => r.priority) = some "medium" := by
  refine ⟨?_, by decide, by decide, by decide, by decide, by decide, by decide,
    by decide⟩
  have h0 : (compute_drift task_id task_title description contract contract_raw
      git_root changes).recommendations =
      dedupByAction (((compute_drift task_id task_title description contract
        contract_raw git_root changes).findings.map
          (fun f => f.kind)).filterMap recFor) := by
    show dedupByAction ((compute_drift task_id task_title description contract
      contract_raw git_root changes).findings.filterMap
        (fun f => recFor f.kind)) = _
    rw [List.filterMap_map]
    rfl
  rw [h0, dedupByAction, dedupByAction, dedupFirst]
  exact dedupByActionAux_filterMap_dedup recFor _ [] []
    (by intro k hk; exact absurd hk (List.not_mem_nil k))

/-! ## Contract codec (`src/wg_drift/contracts.py`): render and parse

`render_contract_toml` is the project's own minimal TOML writer; it is
embedded below line by line.  `parse_contract` delegates to the external
stdlib `tomllib`; the parser below models the table-only TOML fragment that
the codec exchanges (bare keys, basic strings without escape sequences,
decimal integers, booleans, multi-line arrays of strings).  Strings
containing backslashes or control characters are rejected by the model, as
escape-sequence handling is outside the modelled fragment. -/

/-- A raw contract table restricted to the documented fields; `none` means
the key is absent (the code treats an explicitly-`None` array or numeric
value exactly like an absent key via its `is None` checks). -/
structure RawContract where
  schema : Option Int
  mode : Option String
  objective : Option String
  non_goals : Option (List String)
  touch : Option (List String)
  acceptance : Option (List String)
  max_files : Option Int
  max_loc : Option Int
  pit_stop_after : Option Int
  auto_followups : Option Bool
deriving DecidableEq, Repr

/-- The empty raw table `{}`. -/
def emptyRawContract : RawContract :=
  ⟨none, none, none, none, none, none, none, none, none, none⟩

/-- One decimal digit character. -/
def digitChar (d : Nat) : Char :=
  match d with
  | 0 => '0' | 1 => '1' | 2 => '2' | 3 => '3' | 4 => '4'
  | 5 => '5' | 6 => '6' | 7 => '7' | 8 => '8' | _ => '9'

/-- Decimal rendering of a natural number (fuelled so that it reduces in the
kernel; `natChars` supplies sufficient fuel). -/
def natCharsAux (fuel n : Nat) : List Char :=
  match fuel with
  | 0 => []
  | fuel' + 1 =>
    if n < 10 then [digitChar n]
    else natCharsAux fuel' (n / 10) ++ [digitChar (n % 10)]

/-- Decimal rendering of a natural number (Python `str(n)` for `n ≥ 0`). -/
def natChars (n : Nat) : List Char := natCharsAux (n + 1) n

/-- Decimal rendering of an integer (Python `str(n)` / `f"{n}"`). -/
def intChars : Int → List Char
  | Int.ofNat n => natChars n
  | Int.negSucc m => '-' :: natChars (m + 1)

/-- Numeric value of a digit character. -/
def charDigitVal (c : Char) : Nat := c.toNat - 48

/-- Value of a digit string. -/
def valChars (cs : List Char) : Nat :=
  cs.foldl (fun acc c => acc * 10 + charDigitVal c) 0

/-- Parse a non-empty all-digit string as a natural number. -/
def parseNatChars (cs : List Char) : Option Nat :=
  if cs ≠ [] ∧ cs.all Char.isDigit then some (valChars cs) else none

/-- Parse a decimal integer with optional leading minus sign. -/
def parseIntChars (cs : List Char) : Option Int :=
  if cs.head? = some '-' then (parseNatChars (cs.drop 1)).map (fun n => -(n : Int))
  else (parseNatChars cs).map (fun n => (n : Int))

/-- A character that may appear verbatim inside a rendered basic string in
the modelled TOML fragment: not a quote, not a backslash, and not a control
character other than tab. -/
def plainChar (c : Char) : Bool :=
  !(c = '"') && !(c = '\\') && (32 ≤ c.toNat || c = '\t')

/-- The string normalization of `toml_string`:
`str(s).replace('"', "").replace("\n", " ").strip()`. -/
def tomlNormalize (s : String) : String :=
  String.mk (pyStrip (((s.data.filter (fun c => !(c = '"'))).map
    (fun c => if c = '\n' then ' ' else c))))

/-- A rendered quoted string (`toml_string`). -/
def quoteChars (s : String) : List Char := '"' :: (tomlNormalize s).data ++ ['"']

/-- One rendered array member line (`f"  {toml_string(str(x))},"`). -/
def itemLine (x : String) : List Char := "  ".data ++ quoteChars x ++ [',']

/-- The rendered lines of one array field
(`lines.append(f"{key} = {toml_list_str(xs)}")`, with `toml_list_str`'s
newline-joined pieces given as separate lines — joining is
character-identical). -/
def arrayLines (key : List Char) (xs : List String) : List (List Char) :=
  (key ++ " = [".data) :: xs.map itemLine ++ ["]".data]

/-- The rendered lines of `render_contract_toml`, in the source's fixed field
order; omitted optional fields contribute no lines. -/
def renderLines (raw : RawContract) : List (List Char) :=
  ("schema = ".data ++ intChars (raw.schema.getD 1)) ::
  ((match raw.mode with
    | some m => ["mode = ".data ++ quoteChars m]
    | none => []) ++
   (match raw.objective with
    | some o => ["objective = ".data ++ quoteChars o]
    | none => []) ++
   (match raw.non_goals with
    | some xs => arrayLines "non_goals".data xs
    | none => []) ++
   (match raw.touch with
    | some xs => arrayLines "touch".data xs
    | none => []) ++
   (match raw.acceptance with
    | some xs => arrayLines "acceptance".data xs
    | none => []) ++
   (match raw.max_files with
    | some n => ["max_files = ".data ++ intChars n]
    | none => []) ++
   (match raw.max_loc with
    | some n => ["max_loc = ".data ++ intChars n]
    | none => []) ++
   (match raw.pit_stop_after with
    | some n => ["pit_stop_after = ".data ++ intChars n]
    | none => []) ++
   (match raw.auto_followups with
    | some b => ["auto_followups = ".data ++
        (if b then "true".data else "false".data)]
    | none => []))

/-- Join lines with newlines (Python `"\n".join(lines)`). -/
def joinNl : List (List Char) → List Char
  | [] => []
  | [l] => l
  | l :: rest => l ++ '\n' :: joinNl rest

/-- Embedding of `render_contract_toml`:
`"\n".join(lines).rstrip() + "\n"`. -/
def render_contract_toml (raw : RawContract) : String :=
  String.mk (pyRstrip (joinNl (renderLines raw)) ++ ['\n'])

/-- Embedding of `render_contract_block`:
the rendered TOML wrapped in a wg-contract fence. -/
def render_contract_block (raw : RawContract) : String :=
  String.mk ("```wg-contract\n".data ++ (render_contract_toml raw).data ++
    "```\n".data)

/-- Python `s.lstrip("\n")`. -/
def lstripNlChars (cs : List Char) : List Char := cs.dropWhile (fun c => c = '\n')

/-- Python `s.rstrip("\n")`. -/
def rstripNlChars (cs : List Char) : List Char :=
  (cs.reverse.dropWhile (fun c => c = '\n')).reverse

/-- Embedding of `replace_contract_block`: replace the first wg-contract
fenced block in place (the rendered replacement contains no backslash in the
domains considered, so `re.sub`'s template-escape processing inserts it
literally), stripping leading newlines from the result; with no block
present, prepend the new block, separated by a blank line from a non-blank
description. -/
def replace_contract_block (description : String) (raw : RawContract) : String :=
  let nb := (render_contract_block raw).data
  match searchFence description.data with
  | some q => String.mk (lstripNlChars (q.1 ++ rstripNlChars nb ++ q.2.2))
  | none =>
    if pyStrip description.data ≠ [] then
      String.mk (nb ++ '\n' :: description.data)
    else String.mk nb

/-- Split one `key = value` line of the modelled TOML fragment: a non-empty
bare key, the literal ` = `, then the value text. -/
def splitKV (l : List Char) : Option (List Char × List Char) :=
  if l.takeWhile (fun c => !(c = ' ')) ≠ [] ∧
      (l.dropWhile (fun c => !(c = ' '))).take 3 = " = ".data then
    some (l.takeWhile (fun c => !(c = ' ')),
      (l.dropWhile (fun c => !(c = ' '))).drop 3)
  else none

/-- Parse a basic string literal of the modelled fragment (no escape
sequences; quotes, backslashes and control characters are rejected inside). -/
def parseQuoted (cs : List Char) : Option String :=
  if cs.head? = some '"' ∧ cs.tail ≠ [] ∧ cs.tail.getLast? = some '"' ∧
      cs.tail.dropLast.all plainChar then
    some (String.mk cs.tail.dropLast)
  else none

/-- Parse a scalar value of the modelled fragment: boolean, basic string, or
decimal integer. -/
def parseScalar (v : List Char) : Option TomlValue :=
  if v = "true".data then some (TomlValue.bool true)
  else if v = "false".data then some (TomlValue.bool false)
  else if v.head? = some '"' then (parseQuoted v).map TomlValue.str
  else (parseIntChars v).map TomlValue.int

/-- Parse one (stripped) array member line: a quoted string followed by a
comma. -/
def parseArrayItem (t : List Char) : Option String :=
  if t.getLast? = some ',' then parseQuoted t.dropLast else none

/-- Line-by-line parser for the modelled table-only TOML fragment: skip blank
lines, read `key = value` scalars, and collect multi-line string arrays
opened by `key = [` and closed by `]`; `none` models a `tomllib` parse
error. -/
def parseLinesAux : List (List Char) → Option (List Char × List String) →
    Option (List (String × TomlValue))
  | [], some _ => none
  | [], none => some []
  | l :: rest, some st =>
    if pyStrip l = "]".data then
      (parseLinesAux rest none).map
        (fun tbl => (String.mk st.1, TomlValue.arr st.2) :: tbl)
    else
      match parseArrayItem (pyStrip l) with
      | some s => parseLinesAux rest (some (st.1, st.2 ++ [s]))
      | none => none
  | l :: rest, none =>
    if pyStrip l = [] then parseLinesAux rest none
    else
      match splitKV l with
      | some kv =>
        if kv.2 = "[".data then parseLinesAux rest (some (kv.1, []))
        else
          match parseScalar kv.2 with
          | some tv =>
            (parseLinesAux rest none).map (fun tbl => (String.mk kv.1, tv) :: tbl)
          | none => none
      | none => none

/-- Embedding of `parse_contract` over the modelled fragment: split into
lines and parse; `none` models the raised parse error. -/
def parse_contract (text : String) : Option (List (String × TomlValue)) :=
  parseLinesAux (splitSep '\n' text.data) none

/-- The raw table as a key/value list in the writer's canonical field order
(Python dict equality is insertion-order-insensitive; the documented keys are
distinct, so equality with this list determines the dict). -/
def toTable (raw : RawContract) : List (String × TomlValue) :=
  ("schema", TomlValue.int (raw.schema.getD 1)) ::
  ((match raw.mode with
    | some m => [("mode", TomlValue.str m)]
    | none => []) ++
   (match raw.objective with
    | some o => [("objective", TomlValue.str o)]
    | none => []) ++
   (match raw.non_goals with
    | some xs => [("non_goals", TomlValue.arr xs)]
    | none => []) ++
   (match raw.touch with
    | some xs => [("touch", TomlValue.arr xs)]
    | none => []) ++
   (match raw.acceptance with
    | some xs => [("acceptance", TomlValue.arr xs)]
    | none => []) ++
   (match raw.max_files with
    | some n => [("max_files", TomlValue.int n)]
    | none => []) ++
   (match raw.max_loc with
    | some n => [("max_loc", TomlValue.int n)]
    | none => []) ++
   (match raw.pit_stop_after with
    | some n => [("pit_stop_after", TomlValue.int n)]
    | none => []) ++
   (match raw.auto_followups with
    | some b => [("auto_followups", TomlValue.bool b)]
    | none => []))

/-- The claim's reading of §4.2 normalization: every string value has its
quote and newline characters stripped (removed); keys are unchanged. -/
def claimNormalize (raw : RawContract) : RawContract :=
  let norm : String → String := fun s =>
    String.mk (s.data.filter (fun c => !(c = '"') && !(c = '\n')))
  { schema := raw.schema
    mode := raw.mode.map norm
    objective := raw.objective.map norm
    non_goals := (raw.non_goals).map (fun xs => xs.map norm)
    touch := (raw.touch).map (fun xs => xs.map norm)
    acceptance := (raw.acceptance).map (fun xs => xs.map norm)
    max_files := raw.max_files
    max_loc := raw.max_loc
    pit_stop_after := raw.pit_stop_after
    auto_followups := raw.auto_followups }

/-! Round-trip lemmas for the scalar renderers and parsers. -/

theorem digitChar_isDigit (d : Nat) (h : d < 10) : (digitChar d).isDigit = true := by
  interval_cases d <;> decide

theorem charDigitVal_digitChar (d : Nat) (h : d < 10) :
    charDigitVal (digitChar d) = d := by
  interval_cases d <;> decide

theorem natCharsAux_spec (fuel : Nat) : ∀ n, n < fuel →
    natCharsAux fuel n ≠ [] ∧ (natCharsAux fuel n).all Char.isDigit = true ∧
    valChars (natCharsAux fuel n) = n ∧
    (∃ d, (natCharsAux fuel n).getLast? = some d ∧ d.isDigit = true) := by
  induction fuel with
  | zero => intro n h; omega
  | succ fuel' ih =>
    intro n h
    by_cases h10 : n < 10
    · simp only [natCharsAux]
      rw [if_pos h10]
      refine ⟨by simp, ?_, ?_, ⟨digitChar n, rfl, digitChar_isDigit n h10⟩⟩
      · simp [digitChar_isDigit n h10]
      · simp [valChars, charDigitVal_digitChar n h10]
    · have hdiv : n / 10 < fuel' := by
        have := Nat.div_lt_self (by omega : 0 < n) (by omega : 1 < 10)
        omega
      obtain ⟨hne, hall, hval, hlast⟩ := ih (n / 10) hdiv
      have hm : n % 10 < 10 := Nat.mod_lt _ (by omega)
      simp only [natCharsAux]
      rw [if_neg h10]
      refine ⟨by simp, ?_, ?_, ⟨digitChar (n % 10), by simp, digitChar_isDigit _ hm⟩⟩
      · rw [List.all_append]
        simp [hall, digitChar_isDigit _ hm]
      · simp only [valChars] at hval ⊢
        rw [List.foldl_append]
        simp only [List.foldl]
        rw [hval, charDigitVal_digitChar _ hm]
        omega

theorem parseNatChars_natChars (n : Nat) : parseNatChars (natChars n) = some n := by
  obtain ⟨hne, hall, hval, -⟩ := natCharsAux_spec (n + 1) n (by omega)
  unfold parseNatChars natChars
  rw [if_pos ⟨hne, hall⟩, hval]

theorem natChars_ne_nil (n : Nat) : natChars n ≠ [] :=
  (natCharsAux_spec _ n (by omega)).1

theorem natChars_all_digit (n : Nat) : (natChars n).all Char.isDigit = true :=
  (natCharsAux_spec _ n (by omega)).2.1

theorem natChars_last (n : Nat) :
    ∃ d, (natChars n).getLast? = some d ∧ d.isDigit = true :=
  (natCharsAux_spec _ n (by omega)).2.2.2

theorem natChars_head_digit (n : Nat) :
    ∃ c t, natChars n = c :: t ∧ c.isDigit = true := by
  obtain ⟨c, t, hct⟩ := List.exists_cons_of_ne_nil (natChars_ne_nil n)
  refine ⟨c, t, hct, ?_⟩
  have hall := natChars_all_digit n
  rw [hct] at hall
  simp [List.all_cons] at hall
  exact hall.1

theorem parseIntChars_intChars (n : Int) : parseIntChars (intChars n) = some n := by
  cases n with
  | ofNat m =>
    obtain ⟨c, t, hct, hd⟩ := natChars_head_digit m
    have hcm : c ≠ '-' := by
      intro he
      rw [he] at hd
      exact absurd hd (by decide)
    show parseIntChars (natChars m) = some (Int.ofNat m)
    unfold parseIntChars
    rw [hct, if_neg (by simp [hcm]), ← hct, parseNatChars_natChars]
    rfl
  | negSucc m =>
    show parseIntChars ('-' :: natChars (m + 1)) = some (Int.negSucc m)
    unfold parseIntChars
    rw [if_pos (by simp)]
    simp [parseNatChars_natChars (m + 1), Int.negSucc_eq]
    try push_cast
    try ring

theorem intChars_head (n : Int) :
    ∃ c t, intChars n = c :: t ∧ (c.isDigit = true ∨ c = '-') := by
  cases n with
  | ofNat m =>
    obtain ⟨c, t, h, hd⟩ := natChars_head_digit m
    exact ⟨c, t, h, Or.inl hd⟩
  | negSucc m => exact ⟨'-', natChars (m + 1), rfl, Or.inr rfl⟩

theorem parseScalar_int (n : Int) :
    parseScalar (intChars n) = some (TomlValue.int n) := by
  obtain ⟨c, t, hct, hc⟩ := intChars_head n
  have hct' : c ≠ 't' ∧ c ≠ 'f' ∧ c ≠ '"' := by
    rcases hc with hd | he
    · refine ⟨?_, ?_, ?_⟩ <;> intro he <;> rw [he] at hd <;> exact absurd hd (by decide)
    · rw [he]
      refine ⟨by decide, by decide, by decide⟩
  unfold parseScalar
  rw [hct]
  rw [if_neg (by simp [hct'.1]), if_neg (by simp [hct'.2.1]),
    if_neg (by simp [hct'.2.2]), ← hct, parseIntChars_intChars]
  rfl

theorem map_eq_self_of_fix {α : Type} (f : α → α) (l : List α)
    (h : ∀ c ∈ l, f c = c) : l.map f = l := by
  induction l with
  | nil => rfl
  | cons c rest ih =>
    simp only [List.map_cons, h c (by simp)]
    rw [ih (fun x hx => h x (by simp [hx]))]

theorem tomlNormalize_plain (s : String) (h : s.data.all plainChar = true)
    (hst : pyStrip s.data = s.data) : tomlNormalize s = s := by
  unfold tomlNormalize
  have hq : s.data.filter (fun c => !(c = '"')) = s.data := by
    rw [List.filter_eq_self]
    intro c hc
    have hp := List.all_eq_true.mp h c hc
    unfold plainChar at hp
    simp at hp ⊢
    exact hp.1.1
  rw [hq]
  have hnl : (s.data.map (fun c => if c = '\n' then ' ' else c)) = s.data := by
    apply map_eq_self_of_fix
    intro c hc
    have hp := List.all_eq_true.mp h c hc
    unfold plainChar at hp
    simp at hp
    have hcn : c ≠ '\n' := by
      intro he
      rw [he] at hp
      rcases hp.2 with h32 | htab
      · exact absurd h32 (by decide)
      · exact absurd htab (by decide)
    simp [hcn]
  rw [hnl, hst]

theorem parseScalar_str (m : String) (h : m.data.all plainChar = true)
    (hst : pyStrip m.data = m.data) :
    parseScalar (quoteChars m) = some (TomlValue.str m) := by
  unfold quoteChars
  rw [tomlNormalize_plain m h hst, List.cons_append]
  unfold parseScalar
  rw [if_neg (by simp), if_neg (by simp), if_pos (by simp)]
  unfold parseQuoted
  rw [if_pos ⟨rfl, by simp,
    show (m.data ++ ['"']).getLast? = some '"' from List.getLast?_concat _,
    show ((m.data ++ ['"']).dropLast.all plainChar) = true by
      rw [List.dropLast_concat]; exact h⟩]
  show Option.map TomlValue.str (some (String.mk ((m.data ++ ['"']).dropLast))) = _
  rw [List.dropLast_concat]
  rfl

/-! Helper lemmas for stripping and key/value splitting. -/

/-- A string value that survives the codec unchanged: only plain characters,
and no leading/trailing whitespace. -/
def plainStr (s : String) : Prop :=
  s.data.all plainChar = true ∧ pyStrip s.data = s.data

/-- Plainness of every string value of a raw contract table. -/
def plainRaw (raw : RawContract) : Prop :=
  raw.mode.elim True plainStr ∧ raw.objective.elim True plainStr ∧
  (raw.non_goals.elim True fun xs => ∀ x ∈ xs, plainStr x) ∧
  (raw.touch.elim True fun xs => ∀ x ∈ xs, plainStr x) ∧
  (raw.acceptance.elim True fun xs => ∀ x ∈ xs, plainStr x)

theorem mem_dropWhile_of_not (p : Char → Bool) (l : List Char) (c : Char)
    (hc : c ∈ l) (hp : p c = false) : c ∈ l.dropWhile p := by
  induction l with
  | nil => cases hc
  | cons x xs ih =>
    rw [List.dropWhile_cons]
    by_cases hx : p x = true
    · rw [if_pos hx]
      rcases List.mem_cons.mp hc with he | hm
      · rw [he] at hp
        rw [hp] at hx
        cases hx
      · exact ih hm
    · rw [if_neg hx]
      exact hc

theorem pyStrip_ne_nil (l : List Char) (c : Char) (hc : c ∈ l)
    (hp : isPySpace c = false) : pyStrip l ≠ [] := by
  have h1 : c ∈ pyRstrip l := by
    unfold pyRstrip
    rw [List.mem_reverse]
    exact mem_dropWhile_of_not _ _ _ (List.mem_reverse.mpr hc) hp
  have h2 : c ∈ pyStrip l := by
    unfold pyStrip pyLstrip
    exact mem_dropWhile_of_not _ _ _ h1 hp
  exact List.ne_nil_of_mem h2

theorem takeWhile_append_all (p : Char → Bool) (a b : List Char)
    (h : ∀ c ∈ a, p c = true) : (a ++ b).takeWhile p = a ++ b.takeWhile p := by
  induction a with
  | nil => simp
  | cons x xs ih =>
    rw [List.cons_append, List.takeWhile_cons, if_pos (h x (by simp)),
      ih (fun c hc => h c (by simp [hc]))]
    rfl

theorem dropWhile_append_all (p : Char → Bool) (a b : List Char)
    (h : ∀ c ∈ a, p c = true) : (a ++ b).dropWhile p = b.dropWhile p := by
  induction a with
  | nil => simp
  | cons x xs ih =>
    rw [List.cons_append, List.dropWhile_cons, if_pos (h x (by simp))]
    exact ih (fun c hc => h c (by simp [hc]))

theorem splitKV_render (key v : List Char) (hne : key ≠ [])
    (hk : ∀ c ∈ key, isPySpace c = false) :
    splitKV (key ++ " = ".data ++ v) = some (key, v) := by
  have hsp : ∀ c ∈ key, (!(c = ' ')) = true := by
    intro c hc
    have hns := hk c hc
    by_contra hcc
    simp at hcc
    rw [hcc] at hns
    exact absurd hns (by decide)
  have hdat : (" = ".data : List Char) = [' ', '=', ' '] := rfl
  unfold splitKV
  rw [List.append_assoc, hdat]
  rw [takeWhile_append_all _ key _ hsp, dropWhile_append_all _ key _ hsp]
  simp [hne, List.take, List.drop]

/-- Composability of the line parser: consuming a chunk of lines prepends a
fixed table fragment whatever follows. -/
def Consumes (ls : List (List Char)) (t : List (String × TomlValue)) : Prop :=
  ∀ rest, parseLinesAux (ls ++ rest) none =
    (parseLinesAux rest none).map (fun tbl => t ++ tbl)

theorem consumes_nil : Consumes [] [] := by
  intro rest
  cases h : parseLinesAux rest none <;> simp [h]

theorem consumes_append {A B : List (List Char)}
    {t1 t2 : List (String × TomlValue)} (hA : Consumes A t1)
    (hB : Consumes B t2) : Consumes (A ++ B) (t1 ++ t2) := by
  intro rest
  rw [List.append_assoc, hA, hB]
  cases parseLinesAux rest none <;> simp

theorem consumes_scalar (key v : List Char) (tv : TomlValue) (hne : key ≠ [])
    (hk : ∀ c ∈ key, isPySpace c = false)
    (hv : v ≠ "[".data) (hps : parseScalar v = some tv) :
    Consumes [key ++ " = ".data ++ v] [(String.mk key, tv)] := by
  intro rest
  obtain ⟨c0, key', hkey⟩ := List.exists_cons_of_ne_nil hne
  have hc0 : isPySpace c0 = false := hk c0 (by rw [hkey]; simp)
  have hmem : c0 ∈ key ++ " = ".data ++ v := by rw [hkey]; simp
  simp only [List.singleton_append, parseLinesAux]
  rw [if_neg (pyStrip_ne_nil _ c0 hmem hc0)]
  simp only [splitKV_render key v hne hk]
  rw [if_neg hv]
  simp only [hps]
  cases h : parseLinesAux rest none <;> simp [h]

theorem pyRstrip_concat (l : List Char) (d : Char) (hd : isPySpace d = false) :
    pyRstrip (l ++ [d]) = l ++ [d] := by
  unfold pyRstrip
  rw [List.reverse_append]
  simp only [List.reverse_cons, List.reverse_nil, List.nil_append,
    List.singleton_append]
  rw [List.dropWhile_cons, if_neg (by rw [hd]; simp)]
  simp

theorem pyStrip_item (r : List Char) :
    pyStrip (' ' :: ' ' :: '"' :: (r ++ ['"', ','])) = '"' :: (r ++ ['"', ',']) := by
  unfold pyStrip
  have h1 : pyRstrip (' ' :: ' ' :: '"' :: (r ++ ['"', ','])) =
      ' ' :: ' ' :: '"' :: (r ++ ['"', ',']) := by
    rw [show (' ' :: ' ' :: '"' :: (r ++ ['"', ','])) =
        ((' ' :: ' ' :: '"' :: (r ++ ['"'])) ++ [',']) by simp]
    rw [pyRstrip_concat _ _ (by decide)]
  rw [h1]
  unfold pyLstrip
  simp [List.dropWhile_cons, isPySpace]

theorem parseArrayItem_line (mid : List Char) (h : mid.all plainChar = true) :
    parseArrayItem ('"' :: (mid ++ ['"', ','])) = some (String.mk mid) := by
  unfold parseArrayItem
  have hlast : ('"' :: (mid ++ ['"', ','])).getLast? = some ',' := by
    rw [show ('"' :: (mid ++ ['"', ','])) = (('"' :: (mid ++ ['"'])) ++ [',']) by simp]
    rw [List.getLast?_concat]
  rw [if_pos hlast]
  have hdrop : ('"' :: (mid ++ ['"', ','])).dropLast = '"' :: (mid ++ ['"']) := by
    rw [show ('"' :: (mid ++ ['"', ','])) = (('"' :: (mid ++ ['"'])) ++ [',']) by simp]
    rw [List.dropLast_concat]
  rw [hdrop]
  unfold parseQuoted
  rw [if_pos ⟨rfl, by simp,
    show (mid ++ ['"']).getLast? = some '"' from List.getLast?_concat _,
    show ((mid ++ ['"']).dropLast.all plainChar) = true by
      rw [List.dropLast_concat]; exact h⟩]
  show some (String.mk ((mid ++ ['"']).dropLast)) = _
  rw [List.dropLast_concat]

theorem itemLine_plain (x : String) (hx1 : x.data.all plainChar = true)
    (hx2 : pyStrip x.data = x.data) :
    itemLine x = ' ' :: ' ' :: '"' :: (x.data ++ ['"', ',']) := by
  unfold itemLine quoteChars
  rw [tomlNormalize_plain x hx1 hx2]
  simp

theorem parseLines_array_items (key : List Char) (xs : List String)
    (hxs : ∀ x ∈ xs, plainStr x) :
    ∀ (acc : List String) (rest : List (List Char)),
    parseLinesAux ((xs.map itemLine) ++ ("]".data :: rest)) (some (key, acc)) =
      (parseLinesAux rest none).map
        (fun tbl => (String.mk key, TomlValue.arr (acc ++ xs)) :: tbl) := by
  induction xs with
  | nil =>
    intro acc rest
    simp only [List.map_nil, List.nil_append, parseLinesAux]
    rw [if_pos (show pyStrip "]".data = "]".data from rfl)]
    cases h : parseLinesAux rest none <;> simp [h]
  | cons x xs' ih =>
    intro acc rest
    obtain ⟨hx1, hx2⟩ := hxs x (by simp)
    simp only [List.map_cons, List.cons_append, parseLinesAux]
    rw [itemLine_plain x hx1 hx2, pyStrip_item]
    rw [if_neg (by simp)]
    simp only [parseArrayItem_line x.data hx1]
    rw [show String.mk x.data = x from rfl]
    have ihx := ih (fun y hy => hxs y (by simp [hy])) (acc ++ [x]) rest
    exact ihx.trans (by cases h : parseLinesAux rest none <;> simp [h])

theorem consumes_array (key : List Char) (xs : List String) (hne : key ≠ [])
    (hk : ∀ c ∈ key, isPySpace c = false)
    (hxs : ∀ x ∈ xs, plainStr x) :
    Consumes (arrayLines key xs) [(String.mk key, TomlValue.arr xs)] := by
  intro rest
  obtain ⟨c0, key', hkey⟩ := List.exists_cons_of_ne_nil hne
  have hc0 : isPySpace c0 = false := hk c0 (by rw [hkey]; simp)
  unfold arrayLines
  simp only [List.cons_append, List.append_assoc, List.singleton_append]
  simp only [parseLinesAux]
  rw [if_neg (pyStrip_ne_nil _ c0 (by rw [hkey]; simp) hc0)]
  have hsplit : splitKV (key ++ " = [".data) = some (key, "[".data) := by
    rw [show key ++ " = [".data = key ++ " = ".data ++ "[".data by
      rw [List.append_assoc]; rfl]
    exact splitKV_render key "[".data hne hk
  simp only [hsplit]
  simp only [if_true]
  have harr := parseLines_array_items key xs hxs [] rest
  exact harr.trans (by cases h : parseLinesAux rest none <;> simp [h])

/-! Joining and splitting rendered lines, and shape facts about them. -/

theorem splitSep_append_sep (a b : List Char) (h : '\n' ∉ a) :
    splitSep '\n' (a ++ '\n' :: b) = a :: splitSep '\n' b := by
  induction a with
  | nil => simp [splitSep]
  | cons c a' ih =>
    have hc : ¬(c = '\n') := fun he => h (by simp [he])
    have h' : '\n' ∉ a' := fun hm => h (by simp [hm])
    simp only [List.cons_append, splitSep, List.append_eq, if_neg hc, ih h']

theorem splitSep_no_sep (a : List Char) (h : '\n' ∉ a) :
    splitSep '\n' a = [a] := by
  induction a with
  | nil => rfl
  | cons c a' ih =>
    have hc : ¬(c = '\n') := fun he => h (by simp [he])
    have h' : '\n' ∉ a' := fun hm => h (by simp [hm])
    simp only [splitSep, if_neg hc, ih h']

/-- A line that ends in a non-whitespace character (in `a ++ [d]` form). -/
def lastNonSpace (l : List Char) : Prop :=
  ∃ a d, l = a ++ [d] ∧ isPySpace d = false

theorem lastNonSpace_append (P l : List Char) (h : lastNonSpace l) :
    lastNonSpace (P ++ l) := by
  obtain ⟨a, d, rfl, hd⟩ := h
  exact ⟨P ++ a, d, by simp, hd⟩

theorem pyRstrip_of_lastNonSpace (l : List Char) (h : lastNonSpace l) :
    pyRstrip l = l := by
  obtain ⟨a, d, rfl, hd⟩ := h
  exact pyRstrip_concat a d hd

theorem joinNl_lastNonSpace (ls : List (List Char)) (l0 : List Char)
    (h : ∀ l ∈ (l0 :: ls), lastNonSpace l) : lastNonSpace (joinNl (l0 :: ls)) := by
  induction ls generalizing l0 with
  | nil => exact h l0 (by simp)
  | cons l1 ls' ih =>
    obtain ⟨a, d, had, hd⟩ := ih l1 (fun l hl => by
      refine h l ?_
      simp at hl ⊢
      tauto)
    refine ⟨l0 ++ '\n' :: a, d, ?_, hd⟩
    rw [show joinNl (l0 :: l1 :: ls') = l0 ++ '\n' :: joinNl (l1 :: ls') from rfl,
      had]
    simp

theorem joinNl_cons_eq (l0 : List Char) (ls : List (List Char)) :
    ∃ t, joinNl (l0 :: ls) = l0 ++ t := by
  cases ls with
  | nil => exact ⟨[], by simp [joinNl]⟩
  | cons l1 ls' => exact ⟨'\n' :: joinNl (l1 :: ls'), rfl⟩

theorem pyLstrip_head_nonspace (c : Char) (hc : isPySpace c = false)
    (l : List Char) : pyLstrip (c :: l) = c :: l := by
  unfold pyLstrip
  rw [List.dropWhile_cons, if_neg (by rw [hc]; simp)]

theorem pyStrip_eq_self (l : List Char) (c : Char) (t : List Char)
    (hl : l = c :: t) (hc : isPySpace c = false) (hlast : lastNonSpace l) :
    pyStrip l = l := by
  unfold pyStrip
  rw [pyRstrip_of_lastNonSpace l hlast, hl, pyLstrip_head_nonspace c hc]

theorem splitNl_joinNl_trail (ls : List (List Char)) (l0 : List Char)
    (h : ∀ l ∈ (l0 :: ls), '\n' ∉ l) :
    splitSep '\n' (joinNl (l0 :: ls) ++ ['\n']) = (l0 :: ls) ++ [[]] := by
  induction ls generalizing l0 with
  | nil =>
    show splitSep '\n' (l0 ++ '\n' :: []) = [l0, []]
    rw [splitSep_append_sep l0 [] (h l0 (by simp))]
    rfl
  | cons l1 ls' ih =>
    show splitSep '\n' ((l0 ++ '\n' :: joinNl (l1 :: ls')) ++ ['\n']) = _
    rw [List.append_assoc, List.cons_append]
    rw [splitSep_append_sep l0 _ (h l0 (by simp))]
    rw [ih l1 (fun l hl => by
      refine h l ?_
      simp at hl ⊢
      tauto)]
    rfl

theorem splitNl_joinNl_noTrail (ls : List (List Char)) (l0 : List Char)
    (h : ∀ l ∈ (l0 :: ls), '\n' ∉ l) :
    splitSep '\n' (joinNl (l0 :: ls)) = l0 :: ls := by
  induction ls generalizing l0 with
  | nil => exact splitSep_no_sep l0 (h l0 (by simp))
  | cons l1 ls' ih =>
    show splitSep '\n' (l0 ++ '\n' :: joinNl (l1 :: ls')) = _
    rw [splitSep_append_sep l0 _ (h l0 (by simp))]
    rw [ih l1 (fun l hl => by
      refine h l ?_
      simp at hl ⊢
      tauto)]

/-- Shape facts about one rendered line: newline-free, ends in a
non-whitespace character, and starts with a non-backtick character. -/
def lineOk (l : List Char) : Prop :=
  ('\n' ∉ l) ∧ lastNonSpace l ∧ ∃ c t, l = c :: t ∧ c ≠ '`'

theorem isPySpace_false_of_isDigit (d : Char) (h : d.isDigit = true) :
    isPySpace d = false := by
  have h1 : d ≠ ' ' := fun he => absurd (he ▸ h) (by decide)
  have h2 : d ≠ '\t' := fun he => absurd (he ▸ h) (by decide)
  have h3 : d ≠ '\n' := fun he => absurd (he ▸ h) (by decide)
  have h4 : d ≠ '\r' := fun he => absurd (he ▸ h) (by decide)
  have h5 : d ≠ '\x0B' := fun he => absurd (he ▸ h) (by decide)
  have h6 : d ≠ '\x0C' := fun he => absurd (he ▸ h) (by decide)
  unfold isPySpace
  simp [h1, h2, h3, h4, h5, h6]

theorem intChars_no_nl (n : Int) : '\n' ∉ intChars n := by
  have hnat : ∀ m : Nat, '\n' ∉ natChars m := by
    intro m hm
    have := List.all_eq_true.mp (natChars_all_digit m) _ hm
    exact absurd this (by decide)
  cases n with
  | ofNat m => exact hnat m
  | negSucc m =>
    intro hm
    rcases List.mem_cons.mp hm with he | hm'
    · cases he
    · exact hnat (m + 1) hm'

theorem natChars_lastNonSpace (m : Nat) : lastNonSpace (natChars m) := by
  obtain ⟨d, hd, hdig⟩ := natChars_last m
  rcases List.eq_nil_or_concat (natChars m) with hnil | ⟨a, b, hab⟩
  · exact absurd hnil (natChars_ne_nil m)
  · rw [List.concat_eq_append] at hab
    rw [hab, List.getLast?_concat] at hd
    injection hd with hbd
    subst hbd
    exact ⟨a, b, hab, isPySpace_false_of_isDigit b hdig⟩

theorem intChars_lastNonSpace (n : Int) : lastNonSpace (intChars n) := by
  cases n with
  | ofNat m => exact natChars_lastNonSpace m
  | negSucc m =>
    obtain ⟨a, b, hab, hb⟩ := natChars_lastNonSpace (m + 1)
    exact ⟨'-' :: a, b, by rw [show intChars (Int.negSucc m) = '-' :: natChars (m + 1) from rfl, hab]; rfl, hb⟩

theorem mem_of_mem_pyStrip (l : List Char) (c : Char) (h : c ∈ pyStrip l) :
    c ∈ l := by
  unfold pyStrip pyLstrip pyRstrip at h
  have h1 := List.Sublist.mem h (List.dropWhile_sublist _)
  rw [List.mem_reverse] at h1
  have h2 := List.Sublist.mem h1 (List.dropWhile_sublist _)
  rw [List.mem_reverse] at h2
  exact h2

theorem tomlNormalize_no_nl (m : String) : '\n' ∉ (tomlNormalize m).data := by
  intro hm
  unfold tomlNormalize at hm
  have h1 := mem_of_mem_pyStrip _ _ hm
  rw [List.mem_map] at h1
  obtain ⟨c, -, hc⟩ := h1
  by_cases he : c = '\n'
  · rw [if_pos he] at hc
    cases hc
  · rw [if_neg he] at hc
    exact he hc

theorem quoteChars_no_nl (m : String) : '\n' ∉ quoteChars m := by
  intro hm
  unfold quoteChars at hm
  rcases List.mem_append.mp hm with h1 | h1
  · rcases List.mem_cons.mp h1 with he | h2
    · cases he
    · exact tomlNormalize_no_nl m h2
  · rcases List.mem_cons.mp h1 with he | h2
    · cases he
    · cases h2

theorem quoteChars_lastNonSpace (m : String) : lastNonSpace (quoteChars m) :=
  ⟨'"' :: (tomlNormalize m).data, '"', rfl, by decide⟩

theorem lineOk_append (P l : List Char) (c : Char) (t : List Char)
    (hP : P = c :: t) (hc : c ≠ '`') (hnlP : '\n' ∉ P) (hnl : '\n' ∉ l)
    (hlast : lastNonSpace l) : lineOk (P ++ l) := by
  refine ⟨?_, lastNonSpace_append P l hlast, c, t ++ l, by rw [hP]; rfl, hc⟩
  intro hm
  rcases List.mem_append.mp hm with h1 | h1
  · exact hnlP h1
  · exact hnl h1

theorem plain_no_nl (s : String) (h : s.data.all plainChar = true) :
    '\n' ∉ s.data := by
  intro hm
  exact absurd (List.all_eq_true.mp h _ hm) (by decide)

theorem intChars_ne_bracket (n : Int) : intChars n ≠ "[".data := by
  obtain ⟨c, t, hct, hc⟩ := intChars_head n
  rw [hct]
  intro he
  rw [show ("[".data : List Char) = ['['] from rfl] at he
  injection he with h1 h2
  rcases hc with hd | hminus
  · rw [h1] at hd
    exact absurd hd (by decide)
  · rw [h1] at hminus
    exact absurd hminus (by decide)

theorem quoteChars_ne_bracket (m : String) : quoteChars m ≠ "[".data := by
  unfold quoteChars
  intro he
  rw [show ("[".data : List Char) = ['['] from rfl, List.cons_append] at he
  injection he with h1 h2
  exact absurd h1 (by decide)

theorem lineOk_int (P : List Char) (n : Int) (c : Char) (t : List Char)
    (hP : P = c :: t) (hc : c ≠ '`') (hnl : '\n' ∉ P) :
    lineOk (P ++ intChars n) :=
  lineOk_append P _ c t hP hc hnl (intChars_no_nl n) (intChars_lastNonSpace n)

theorem lineOk_str (P : List Char) (m : String) (c : Char) (t : List Char)
    (hP : P = c :: t) (hc : c ≠ '`') (hnl : '\n' ∉ P) :
    lineOk (P ++ quoteChars m) :=
  lineOk_append P _ c t hP hc hnl (quoteChars_no_nl m) (quoteChars_lastNonSpace m)

theorem lineOk_itemLine (x : String) : lineOk (itemLine x) := by
  refine ⟨?_, ⟨"  ".data ++ quoteChars x, ',', rfl, by decide⟩,
    ' ', ' ' :: (quoteChars x ++ [',']), rfl, by decide⟩
  intro hmm
  unfold itemLine at hmm
  rcases List.mem_append.mp hmm with h2 | h2
  · rcases List.mem_append.mp h2 with h3 | h3
    · exact absurd h3 (by decide)
    · exact quoteChars_no_nl x h3
  · exact absurd h2 (by decide)

theorem arrayLines_ok (key : List Char) (xs : List String) (c : Char)
    (t : List Char) (hkey : key = c :: t) (hc : c ≠ '`') (hnlkey : '\n' ∉ key) :
    ∀ l ∈ arrayLines key xs, lineOk l := by
  intro l hl
  unfold arrayLines at hl
  rcases List.mem_cons.mp hl with he | hl2
  · subst he
    exact lineOk_append key " = [".data c t hkey hc hnlkey (by decide)
      ⟨[' ', '=', ' '], '[', rfl, by decide⟩
  · rcases List.mem_append.mp hl2 with hitem | hclose
    · obtain ⟨x, -, rfl⟩ := List.mem_map.mp hitem
      exact lineOk_itemLine x
    · rw [List.mem_singleton] at hclose
      subst hclose
      exact ⟨by decide, ⟨[], ']', rfl, by decide⟩, ']', [], rfl, by decide⟩

theorem renderLines_ok (raw : RawContract) :
    ∀ l ∈ renderLines raw, lineOk l := by
  intro l hl
  unfold renderLines at hl
  rcases List.mem_cons.mp hl with he | hl
  · subst he
    exact lineOk_int "schema = ".data _ 's' _ rfl (by decide) (by decide)
  simp only [List.mem_append] at hl
  rcases hl with (((((((h1 | h1) | h1) | h1) | h1) | h1) | h1) | h1) | h1
  · cases hmm : raw.mode with
    | none => rw [hmm] at h1; cases h1
    | some mo =>
      rw [hmm, List.mem_singleton] at h1
      subst h1
      exact lineOk_str "mode = ".data mo 'm' _ rfl (by decide) (by decide)
  · cases hoo : raw.objective with
    | none => rw [hoo] at h1; cases h1
    | some o =>
      rw [hoo, List.mem_singleton] at h1
      subst h1
      exact lineOk_str "objective = ".data o 'o' _ rfl (by decide) (by decide)
  · cases hng : raw.non_goals with
    | none => rw [hng] at h1; cases h1
    | some xs =>
      rw [hng] at h1
      exact arrayLines_ok "non_goals".data xs 'n' _ rfl (by decide) (by decide) l h1
  · cases htc : raw.touch with
    | none => rw [htc] at h1; cases h1
    | some xs =>
      rw [htc] at h1
      exact arrayLines_ok "touch".data xs 't' _ rfl (by decide) (by decide) l h1
  · cases hac : raw.acceptance with
    | none => rw [hac] at h1; cases h1
    | some xs =>
      rw [hac] at h1
      exact arrayLines_ok "acceptance".data xs 'a' _ rfl (by decide) (by decide) l h1
  · cases hmf : raw.max_files with
    | none => rw [hmf] at h1; cases h1
    | some n =>
      rw [hmf, List.mem_singleton] at h1
      subst h1
      exact lineOk_int "max_files = ".data n 'm' _ rfl (by decide) (by decide)
  · cases hml : raw.max_loc with
    | none => rw [hml] at h1; cases h1
    | some n =>
      rw [hml, List.mem_singleton] at h1
      subst h1
      exact lineOk_int "max_loc = ".data n 'm' _ rfl (by decide) (by decide)
  · cases hps : raw.pit_stop_after with
    | none => rw [hps] at h1; cases h1
    | some n =>
      rw [hps, List.mem_singleton] at h1
      subst h1
      exact lineOk_int "pit_stop_after = ".data n 'p' _ rfl (by decide) (by decide)
  · cases haf : raw.auto_followups with
    | none => rw [haf] at h1; cases h1
    | some b =>
      rw [haf, List.mem_singleton] at h1
      subst h1
      cases b
      · exact ⟨by decide, ⟨"auto_followups = fals".data, 'e', rfl, by decide⟩,
          'a', _, rfl, by decide⟩
      · exact ⟨by decide, ⟨"auto_followups = tru".data, 'e', rfl, by decide⟩,
          'a', _, rfl, by decide⟩

theorem renderLines_ne_nil (raw : RawContract) : renderLines raw ≠ [] := by
  unfold renderLines
  exact List.cons_ne_nil _ _

theorem joinNl_lastNonSpace' (ls : List (List Char)) (hne : ls ≠ [])
    (h : ∀ l ∈ ls, lastNonSpace l) : lastNonSpace (joinNl ls) := by
  obtain ⟨l0, ls', rfl⟩ := List.exists_cons_of_ne_nil hne
  exact joinNl_lastNonSpace ls' l0 h

theorem splitNl_joinNl_trail' (ls : List (List Char)) (hne : ls ≠ [])
    (h : ∀ l ∈ ls, '\n' ∉ l) :
    splitSep '\n' (joinNl ls ++ ['\n']) = ls ++ [[]] := by
  obtain ⟨l0, ls', rfl⟩ := List.exists_cons_of_ne_nil hne
  exact splitNl_joinNl_trail ls' l0 h

theorem splitNl_joinNl_noTrail' (ls : List (List Char)) (hne : ls ≠ [])
    (h : ∀ l ∈ ls, '\n' ∉ l) :
    splitSep '\n' (joinNl ls) = ls := by
  obtain ⟨l0, ls', rfl⟩ := List.exists_cons_of_ne_nil hne
  exact splitNl_joinNl_noTrail ls' l0 h

theorem consumes_renderLines (raw : RawContract) (h : plainRaw raw) :
    Consumes (renderLines raw) (toTable raw) := by
  obtain ⟨hm, ho, hng, htc, hac⟩ := h
  have c1 : Consumes ["schema = ".data ++ intChars (raw.schema.getD 1)]
      [("schema", TomlValue.int (raw.schema.getD 1))] :=
    consumes_scalar "schema".data (intChars (raw.schema.getD 1))
      (TomlValue.int (raw.schema.getD 1)) (by decide) (by decide)
      (intChars_ne_bracket _) (parseScalar_int _)
  have cm : Consumes
      (match raw.mode with
       | some m => ["mode = ".data ++ quoteChars m]
       | none => [])
      (match raw.mode with
       | some m => [("mode", TomlValue.str m)]
       | none => []) := by
    cases hmm : raw.mode with
    | none => exact consumes_nil
    | some mo =>
      rw [hmm] at hm
      have hmo : plainStr mo := hm
      exact consumes_scalar "mode".data (quoteChars mo) (TomlValue.str mo)
        (by decide) (by decide) (quoteChars_ne_bracket mo)
        (parseScalar_str mo hmo.1 hmo.2)
  have co : Consumes
      (match raw.objective with
       | some o => ["objective = ".data ++ quoteChars o]
       | none => [])
      (match raw.objective with
       | some o => [("objective", TomlValue.str o)]
       | none => []) := by
    cases hoo : raw.objective with
    | none => exact consumes_nil
    | some o =>
      rw [hoo] at ho
      have hoo' : plainStr o := ho
      exact consumes_scalar "objective".data (quoteChars o) (TomlValue.str o)
        (by decide) (by decide) (quoteChars_ne_bracket o)
        (parseScalar_str o hoo'.1 hoo'.2)
  have cng : Consumes
      (match raw.non_goals with
       | some xs => arrayLines "non_goals".data xs
       | none => [])
      (match raw.non_goals with
       | some xs => [("non_goals", TomlValue.arr xs)]
       | none => []) := by
    cases hxs : raw.non_goals with
    | none => exact consumes_nil
    | some xs =>
      rw [hxs] at hng
      exact consumes_array "non_goals".data xs (by decide) (by decide) hng
  have ctc : Consumes
      (match raw.touch with
       | some xs => arrayLines "touch".data xs
       | none => [])
      (match raw.touch with
       | some xs => [("touch", TomlValue.arr xs)]
       | none => []) := by
    cases hxs : raw.touch with
    | none => exact consumes_nil
    | some xs =>
      rw [hxs] at htc
      exact consumes_array "touch".data xs (by decide) (by decide) htc
  have cac : Consumes
      (match raw.acceptance with
       | some xs => arrayLines "acceptance".data xs
       | none => [])
      (match raw.acceptance with
       | some xs => [("acceptance", TomlValue.arr xs)]
       | none => []) := by
    cases hxs : raw.acceptance with
    | none => exact consumes_nil
    | some xs =>
      rw [hxs] at hac
      exact consumes_array "acceptance".data xs (by decide) (by decide) hac
  have cmf : Consumes
      (match raw.max_files with
       | some n => ["max_files = ".data ++ intChars n]
       | none => [])
      (match raw.max_files with
       | some n => [("max_files", TomlValue.int n)]
       | none => []) := by
    cases raw.max_files with
    | none => exact consumes_nil
    | some n =>
      exact consumes_scalar "max_files".data (intChars n) (TomlValue.int n)
        (by decide) (by decide) (intChars_ne_bracket n) (parseScalar_int n)
  have cml : Consumes
      (match raw.max_loc with
       | some n => ["max_loc = ".data ++ intChars n]
       | none => [])
      (match raw.max_loc with
       | some n => [("max_loc", TomlValue.int n)]
       | none => []) := by
    cases raw.max_loc with
    | none => exact consumes_nil
    | some n =>
      exact consumes_scalar "max_loc".data (intChars n) (TomlValue.int n)
        (by decide) (by decide) (intChars_ne_bracket n) (parseScalar_int n)
  have cps : Consumes
      (match raw.pit_stop_after with
       | some n => ["pit_stop_after = ".data ++ intChars n]
       | none => [])
      (match raw.pit_stop_after with
       | some n => [("pit_stop_after", TomlValue.int n)]
       | none => []) := by
    cases raw.pit_stop_after with
    | none => exact consumes_nil
    | some n =>
      exact consumes_scalar "pit_stop_after".data (intChars n) (TomlValue.int n)
        (by decide) (by decide) (intChars_ne_bracket n) (parseScalar_int n)
  have caf : Consumes
      (match raw.auto_followups with
       | some b => ["auto_followups = ".data ++
           (if b then "true".data else "false".data)]
       | none => [])
      (match raw.auto_followups with
       | some b => [("auto_followups", TomlValue.bool b)]
       | none => []) := by
    cases raw.auto_followups with
    | none => exact consumes_nil
    | some b =>
      cases b
      · exact consumes_scalar "auto_followups".data "false".data
          (TomlValue.bool false) (by decide) (by decide) (by decide) (by decide)
      · exact consumes_scalar "auto_followups".data "true".data
          (TomlValue.bool true) (by decide) (by decide) (by decide) (by decide)
  exact consumes_append c1 (consumes_append (consumes_append (consumes_append
    (consumes_append (consumes_append (consumes_append (consumes_append
      (consumes_append cm co) cng) ctc) cac) cmf) cml) cps) caf)

theorem parse_render_toTable (raw : RawContract) (h : plainRaw raw) :
    parse_contract (render_contract_toml raw) = some (toTable raw) := by
  show parseLinesAux
    (splitSep '\n' (pyRstrip (joinNl (renderLines raw)) ++ ['\n'])) none =
    some (toTable raw)
  rw [pyRstrip_of_lastNonSpace _ (joinNl_lastNonSpace' _ (renderLines_ne_nil raw)
    (fun l hl => (renderLines_ok raw l hl).2.1))]
  rw [splitNl_joinNl_trail' _ (renderLines_ne_nil raw)
    (fun l hl => (renderLines_ok raw l hl).1)]
  rw [consumes_renderLines raw h [[]]]
  rw [show parseLinesAux [[]] none = some ([] : List (String × TomlValue)) from rfl]
  simp

/-- The raw table as the key/value list of exactly its present fields, in
canonical field order (no schema defaulting — this is `raw` itself viewed as
a dict). -/
def rawFields (raw : RawContract) : List (String × TomlValue) :=
  (match raw.schema with
   | some n => [("schema", TomlValue.int n)]
   | none => []) ++
  (match raw.mode with
   | some m => [("mode", TomlValue.str m)]
   | none => []) ++
  (match raw.objective with
   | some o => [("objective", TomlValue.str o)]
   | none => []) ++
  (match raw.non_goals with
   | some xs => [("non_goals", TomlValue.arr xs)]
   | none => []) ++
  (match raw.touch with
   | some xs => [("touch", TomlValue.arr xs)]
   | none => []) ++
  (match raw.acceptance with
   | some xs => [("acceptance", TomlValue.arr xs)]
   | none => []) ++
  (match raw.max_files with
   | some n => [("max_files", TomlValue.int n)]
   | none => []) ++
  (match raw.max_loc with
   | some n => [("max_loc", TomlValue.int n)]
   | none => []) ++
  (match raw.pit_stop_after with
   | some n => [("pit_stop_after", TomlValue.int n)]
   | none => []) ++
  (match raw.auto_followups with
   | some b => [("auto_followups", TomlValue.bool b)]
   | none => [])

set_option maxRecDepth 10000

/-- Counterexample to C4 as stated: rendering the empty raw table `{}` and
parsing the result yields `{schema = 1}` (the writer always emits `schema`),
while the claim's normalization of `{}` is still `{}` — so
`parse(render(raw)) == raw` up to the documented string normalization fails
at `raw = {}`. -/
theorem C4_roundtrip_counterexample :
    parse_contract (render_contract_toml emptyRawContract) =
      some [("schema", TomlValue.int 1)] ∧
    rawFields (claimNormalize emptyRawContract) = [] ∧
    ¬(parse_contract (render_contract_toml emptyRawContract) =
        some (rawFields (claimNormalize emptyRawContract))) := by
  refine ⟨by decide, rfl, by decide⟩

/-- C4 (amended): for every raw contract table built from the documented
fields whose string values are plain — no quote, newline, backslash or other
control characters, and no leading or trailing whitespace, i.e. values
already in the §4.2 normal form — parsing the rendered TOML text gives back
exactly the table of raw's fields with `schema` defaulted to 1 when absent
(the writer always emits `schema`). -/
theorem C4_amended_roundtrip (raw : RawContract) (h : plainRaw raw) :
    parse_contract (render_contract_toml raw) = some (toTable raw) :=
  parse_render_toTable raw h

/-- A fully-populated plain raw table used by the C4 and C5 witnesses. -/
def sampleRaw : RawContract :=
  ⟨some 1, some "core", some "do the thing", some ["no fallbacks"],
   some ["src/**"], some [], some 25, some 800, some 3, some true⟩

/-- Plainness of the sample raw table. -/
theorem sampleRaw_plain : plainRaw sampleRaw :=
  ⟨show plainStr "core" from ⟨by decide, by decide⟩,
   show plainStr "do the thing" from ⟨by decide, by decide⟩,
   show ∀ x ∈ ["no fallbacks"], plainStr x by
     intro x hx
     rw [List.mem_singleton] at hx
     subst hx
     exact ⟨by decide, by decide⟩,
   show ∀ x ∈ ["src/**"], plainStr x by
     intro x hx
     rw [List.mem_singleton] at hx
     subst hx
     exact ⟨by decide, by decide⟩,
   show ∀ x ∈ ([] : List String), plainStr x by simp⟩

/-- Witness for C4 (amended) at a concrete input: the fully-populated sample
table is plain and round-trips to exactly its own field table. -/
theorem C4_amended_roundtrip_witness :
    plainRaw sampleRaw ∧
    parse_contract (render_contract_toml sampleRaw) = some (toTable sampleRaw) :=
  ⟨sampleRaw_plain, C4_amended_roundtrip sampleRaw sampleRaw_plain⟩

/-! ## Fence search lemmas (toward the extract/replace round trip) -/

theorem startsWith_self_append (P X : List Char) :
    listStartsWith P (P ++ X) = true := by
  induction P with
  | nil => rfl
  | cons c ps ih => simp [listStartsWith, ih]

theorem startsWith_ex (P : List Char) : ∀ l : List Char,
    listStartsWith P l = true → ∃ t, l = P ++ t := by
  induction P with
  | nil => exact fun l _ => ⟨l, rfl⟩
  | cons c ps ih =>
    intro l h
    cases l with
    | nil => cases h
    | cons d t =>
      simp only [listStartsWith, Bool.and_eq_true, decide_eq_true_eq] at h
      obtain ⟨rfl, h2⟩ := h
      obtain ⟨t', rfl⟩ := ih t h2
      exact ⟨t', by simp⟩

theorem startsWith_trunc (P : List Char) : ∀ (Z Y₁ Y₂ : List Char),
    P.length ≤ Z.length →
    listStartsWith P (Z ++ Y₁) = listStartsWith P (Z ++ Y₂) := by
  induction P with
  | nil => intro Z Y₁ Y₂ _; rfl
  | cons c ps ih =>
    intro Z Y₁ Y₂ h
    cases Z with
    | nil => simp at h
    | cons d z =>
      simp only [List.cons_append, listStartsWith, List.append_eq]
      rw [ih z Y₁ Y₂ (by simp at h ⊢; omega)]

theorem splitFirstOcc_eq (pat : List Char) : ∀ (l x y : List Char),
    splitFirstOcc pat l = some (x, y) → l = x ++ pat ++ y := by
  intro l
  induction l with
  | nil => intro x y h; cases h
  | cons c rest ih =>
    intro x y h
    unfold splitFirstOcc at h
    by_cases hs : listStartsWith pat (c :: rest) = true
    · rw [if_pos hs] at h
      obtain ⟨t, ht⟩ := startsWith_ex pat (c :: rest) hs
      rw [ht, List.drop_left] at h
      simp only [Option.some.injEq, Prod.mk.injEq] at h
      obtain ⟨hx, hy⟩ := h
      subst hx; subst hy
      rw [ht]; simp
    · rw [if_neg hs] at h
      cases hrec : splitFirstOcc pat rest with
      | none => rw [hrec] at h; cases h
      | some p =>
        simp only [hrec, Option.some.injEq, Prod.mk.injEq] at h
        obtain ⟨hx, hy⟩ := h
        subst hx; subst hy
        have hr := ih p.1 p.2 (by rw [hrec])
        rw [show c :: rest = c :: (p.1 ++ pat ++ p.2) from by rw [← hr]]
        simp

theorem splitFirstOcc_some_of_infix (pat : List Char) (hp : pat ≠ []) :
    ∀ (l u v : List Char), l = u ++ pat ++ v →
    ∃ r, splitFirstOcc pat l = some r := by
  intro l
  induction l with
  | nil =>
    intro u v h
    exact absurd ((List.append_eq_nil.mp ((List.append_eq_nil.mp h.symm).1)).2) hp
  | cons c rest ih =>
    intro u v h
    by_cases hs : listStartsWith pat (c :: rest) = true
    · refine ⟨([], (c :: rest).drop pat.length), ?_⟩
      unfold splitFirstOcc
      rw [if_pos hs]
    · cases u with
      | nil =>
        exfalso
        apply hs
        rw [h]
        simp only [List.nil_append]
        exact startsWith_self_append pat v
      | cons d u' =>
        simp only [List.cons_append, List.cons.injEq] at h
        obtain ⟨rfl, hrest⟩ := h
        obtain ⟨r, hr⟩ := ih u' v hrest
        refine ⟨(c :: r.1, r.2), ?_⟩
        unfold splitFirstOcc
        rw [if_neg hs, hr]

theorem splitFirstOcc_skip (pat : List Char) (c0 : Char) (pt : List Char)
    (hpat : pat = c0 :: pt) : ∀ (a : List Char), (∀ x ∈ a, x ≠ c0) →
    ∀ b : List Char, splitFirstOcc pat (a ++ b) =
      (splitFirstOcc pat b).map (fun p => (a ++ p.1, p.2)) := by
  intro a
  induction a with
  | nil =>
    intro _ b
    simp only [List.nil_append]
    cases h : splitFirstOcc pat b <;> simp [h]
  | cons d a' ih =>
    intro ha b
    have hd : d ≠ c0 := ha d (by simp)
    have hneg : ¬(listStartsWith pat (d :: (a' ++ b)) = true) := by
      rw [hpat]
      intro habs
      simp only [listStartsWith, Bool.and_eq_true, decide_eq_true_eq] at habs
      exact hd habs.1.symm
    have hstep := ih (fun x hx => ha x (by simp [hx])) b
    show splitFirstOcc pat (d :: (a' ++ b)) = _
    cases h : splitFirstOcc pat b with
    | none =>
      rw [h] at hstep
      unfold splitFirstOcc
      rw [if_neg hneg, hstep]
      simp
    | some p =>
      rw [h] at hstep
      unfold splitFirstOcc
      rw [if_neg hneg, hstep]
      simp

theorem splitFirstOcc_close_head (tail : List Char) :
    splitFirstOcc FENCE_CLOSE ('\n' :: '`' :: '`' :: '`' :: tail) =
      some ([], tail) := by
  have hFC : FENCE_CLOSE = ['\n', '`', '`', '`'] := rfl
  unfold splitFirstOcc
  rw [if_pos (by rw [hFC]; simp [listStartsWith])]
  rw [hFC]
  simp [List.drop]

theorem splitFirstOcc_joinNl (L : List (List Char)) (tail : List Char)
    (h : ∀ l ∈ L, lineOk l) :
    splitFirstOcc FENCE_CLOSE (joinNl L ++ '\n' :: '`' :: '`' :: '`' :: tail) =
      some (joinNl L, tail) := by
  induction L with
  | nil =>
    simp only [joinNl, List.nil_append]
    exact splitFirstOcc_close_head tail
  | cons l L' ih =>
    have hok := h l (by simp)
    cases L' with
    | nil =>
      show splitFirstOcc FENCE_CLOSE (l ++ '\n' :: '`' :: '`' :: '`' :: tail) =
        some (l, tail)
      rw [splitFirstOcc_skip FENCE_CLOSE '\n' ['`', '`', '`'] rfl l
        (fun x hx hxe => hok.1 (hxe ▸ hx)) _]
      rw [splitFirstOcc_close_head tail]
      simp
    | cons l2 L'' =>
      have hok2 := h l2 (by simp)
      obtain ⟨c2, t2, hl2, hc2⟩ := hok2.2.2
      show splitFirstOcc FENCE_CLOSE
        ((l ++ '\n' :: joinNl (l2 :: L'')) ++ '\n' :: '`' :: '`' :: '`' :: tail) = _
      rw [List.append_assoc, List.cons_append]
      rw [splitFirstOcc_skip FENCE_CLOSE '\n' ['`', '`', '`'] rfl l
        (fun x hx hxe => hok.1 (hxe ▸ hx)) _]
      have hneg : ¬(listStartsWith FENCE_CLOSE
          ('\n' :: (joinNl (l2 :: L'') ++ '\n' :: '`' :: '`' :: '`' :: tail)) = true) := by
        obtain ⟨T, hT⟩ := joinNl_cons_eq l2 L''
        rw [hT, hl2]
        intro habs
        have hFC : FENCE_CLOSE = ['\n', '`', '`', '`'] := rfl
        rw [hFC] at habs
        simp only [List.cons_append, List.append_assoc, listStartsWith,
          Bool.and_eq_true, decide_eq_true_eq] at habs
        exact hc2 habs.2.1.symm
      have hrec := ih (fun x hx => h x (by simp [hx]))
      unfold splitFirstOcc
      rw [if_neg hneg, hrec]
      simp [joinNl]

theorem dropFenceWs_nl (R : List Char) (c : Char) (t : List Char)
    (hR : R = c :: t) (hc : isPySpace c = false) :
    dropFenceWs ('\n' :: R) = some R := by
  subst hR
  unfold dropFenceWs
  have h1 : ('\n' :: c :: t).takeWhile isPySpace = ['\n'] := by
    rw [List.takeWhile_cons, if_pos (by decide), List.takeWhile_cons,
      if_neg (by rw [hc]; simp)]
  have h2 : ('\n' :: c :: t).dropWhile isPySpace = c :: t := by
    rw [List.dropWhile_cons, if_pos (by decide), List.dropWhile_cons,
      if_neg (by rw [hc]; simp)]
  rw [h1, h2, if_pos (by decide)]
  rw [show afterLastNl ['\n'] = [] from rfl]
  simp

theorem rstripNl_concat (l : List Char) (d : Char) (hd : ¬(d = '\n')) :
    rstripNlChars (l ++ [d]) = l ++ [d] := by
  unfold rstripNlChars
  simp only [List.reverse_append, List.reverse_singleton, List.singleton_append]
  rw [List.dropWhile_cons, if_neg (by simp [hd])]
  simp

theorem rstripNl_concat_nl (l : List Char) :
    rstripNlChars (l ++ ['\n']) = rstripNlChars l := by
  unfold rstripNlChars
  simp only [List.reverse_append, List.reverse_singleton, List.singleton_append]
  rw [List.dropWhile_cons, if_pos (by simp)]

theorem render_toml_data (raw : RawContract) :
    (render_contract_toml raw).data = joinNl (renderLines raw) ++ ['\n'] := by
  show pyRstrip (joinNl (renderLines raw)) ++ ['\n'] = _
  rw [pyRstrip_of_lastNonSpace _ (joinNl_lastNonSpace' _ (renderLines_ne_nil raw)
    (fun l hl => (renderLines_ok raw l hl).2.1))]

theorem renderLines_head (raw : RawContract) :
    ∃ t, joinNl (renderLines raw) =
      ("schema = ".data ++ intChars (raw.schema.getD 1)) ++ t := by
  unfold renderLines
  exact joinNl_cons_eq _ _

theorem joinNl_renderLines_shape (raw : RawContract) (Z : List Char) :
    ∃ t2, joinNl (renderLines raw) ++ Z = 's' :: t2 := by
  obtain ⟨t, ht⟩ := renderLines_head raw
  refine ⟨"chema = ".data ++ intChars (raw.schema.getD 1) ++ t ++ Z, ?_⟩
  rw [ht]
  have hsd : "schema = ".data = 's' :: "chema = ".data := rfl
  rw [hsd]
  simp [List.cons_append, List.append_assoc]

theorem tryMatchAt_block_core (raw : RawContract) (tail : List Char) :
    tryMatchAt ("```wg-contract\n".data ++
        ((joinNl (renderLines raw) ++ ['\n']) ++ ('`' :: '`' :: '`' :: tail))) =
      some (joinNl (renderLines raw), tail) := by
  have hshape : "```wg-contract\n".data ++
      ((joinNl (renderLines raw) ++ ['\n']) ++ ('`' :: '`' :: '`' :: tail)) =
      FENCE_OPEN ++ ('\n' :: (joinNl (renderLines raw) ++
        '\n' :: '`' :: '`' :: '`' :: tail)) := by
    have h1 : "```wg-contract\n".data = FENCE_OPEN ++ ['\n'] := rfl
    rw [h1]
    simp [List.append_assoc, List.singleton_append, List.cons_append]
  rw [hshape]
  unfold tryMatchAt
  rw [if_pos (startsWith_self_append FENCE_OPEN _), List.drop_left]
  obtain ⟨t2, ht2⟩ := joinNl_renderLines_shape raw
    ('\n' :: '`' :: '`' :: '`' :: tail)
  rw [dropFenceWs_nl _ 's' t2 ht2 (by decide)]
  exact splitFirstOcc_joinNl (renderLines raw) tail (renderLines_ok raw)

theorem searchFence_head (c : Char) (cs : List Char) (b a : List Char)
    (h : tryMatchAt (c :: cs) = some (b, a)) :
    searchFence (c :: cs) = some ([], b, a) := by
  unfold searchFence
  rw [h]

theorem rstripNl_block (raw : RawContract) :
    rstripNlChars (render_contract_block raw).data =
      "```wg-contract\n".data ++
        ((joinNl (renderLines raw) ++ ['\n']) ++ "```".data) := by
  have hd : (render_contract_block raw).data =
      ("```wg-contract\n".data ++
        ((joinNl (renderLines raw) ++ ['\n']) ++ "```".data)) ++ ['\n'] := by
    show "```wg-contract\n".data ++ (render_contract_toml raw).data ++
      "```\n".data = _
    rw [render_toml_data]
    have h3 : "```\n".data = "```".data ++ ['\n'] := rfl
    rw [h3]
    simp [List.append_assoc]
  rw [hd, rstripNl_concat_nl]
  have h6 : "```wg-contract\n".data ++
      ((joinNl (renderLines raw) ++ ['\n']) ++ "```".data) =
      ("```wg-contract\n".data ++
        ((joinNl (renderLines raw) ++ ['\n']) ++ ['`', '`'])) ++ ['`'] := by
    have h7 : "```".data = ['`', '`', '`'] := rfl
    rw [h7]
    simp [List.append_assoc]
  rw [h6, rstripNl_concat _ '`' (by decide)]

theorem searchFence_newBlock (raw : RawContract) (Z : List Char) :
    searchFence ((render_contract_block raw).data ++ Z) =
      some ([], joinNl (renderLines raw), '\n' :: Z) := by
  have hd : (render_contract_block raw).data ++ Z =
      "```wg-contract\n".data ++ ((joinNl (renderLines raw) ++ ['\n']) ++
        ('`' :: '`' :: '`' :: ('\n' :: Z))) := by
    show ("```wg-contract\n".data ++ (render_contract_toml raw).data ++
      "```\n".data) ++ Z = _
    rw [render_toml_data]
    have h3 : "```\n".data = ['`', '`', '`', '\n'] := rfl
    rw [h3]
    simp [List.append_assoc, List.cons_append]
  rw [hd]
  have hcons : "```wg-contract\n".data ++ ((joinNl (renderLines raw) ++ ['\n']) ++
      ('`' :: '`' :: '`' :: ('\n' :: Z))) =
      '`' :: ("``wg-contract\n".data ++ ((joinNl (renderLines raw) ++ ['\n']) ++
        ('`' :: '`' :: '`' :: ('\n' :: Z)))) := rfl
  rw [hcons]
  exact searchFence_head _ _ _ _ (by rw [← hcons]; exact tryMatchAt_block_core raw ('\n' :: Z))

theorem pyStrip_joinNl_renderLines (raw : RawContract) :
    pyStrip (joinNl (renderLines raw)) = joinNl (renderLines raw) := by
  obtain ⟨t2, ht2⟩ := joinNl_renderLines_shape raw []
  rw [List.append_nil] at ht2
  exact pyStrip_eq_self _ 's' t2 ht2 (by decide)
    (joinNl_lastNonSpace' _ (renderLines_ne_nil raw)
      (fun l hl => (renderLines_ok raw l hl).2.1))

theorem parse_joinNl (raw : RawContract) (h : plainRaw raw) :
    parse_contract (String.mk (joinNl (renderLines raw))) = some (toTable raw) := by
  show parseLinesAux (splitSep '\n' (joinNl (renderLines raw))) none =
    some (toTable raw)
  rw [splitNl_joinNl_noTrail' _ (renderLines_ne_nil raw)
    (fun l hl => (renderLines_ok raw l hl).1)]
  have hc := consumes_renderLines raw h []
  rw [List.append_nil] at hc
  rw [hc]
  rw [show parseLinesAux ([] : List (List Char)) none =
    some ([] : List (String × TomlValue)) from rfl]
  simp

theorem searchFence_spec (t : List Char) : ∀ (p b a : List Char),
    searchFence t = some (p, b, a) →
    ∃ M, t = p ++ M ∧ tryMatchAt M = some (b, a) ∧
      ∀ s, s ≠ [] → s <:+ p → tryMatchAt (s ++ M) = none := by
  induction t with
  | nil => intro p b a h; simp [searchFence] at h
  | cons c cs ih =>
    intro p b a h
    unfold searchFence at h
    cases hm : tryMatchAt (c :: cs) with
    | some q =>
      simp only [hm, Option.some.injEq, Prod.mk.injEq] at h
      obtain ⟨h1, h2, h3⟩ := h
      subst h1; subst h2; subst h3
      refine ⟨c :: cs, rfl, by rw [hm], ?_⟩
      intro s hs hsuf
      rw [List.suffix_nil] at hsuf
      exact absurd hsuf hs
    | none =>
      simp only [hm] at h
      cases hs2 : searchFence cs with
      | none =>
        simp only [hs2] at h
        exact Option.noConfusion h
      | some q2 =>
        simp only [hs2, Option.some.injEq, Prod.mk.injEq] at h
        obtain ⟨h1, h2, h3⟩ := h
        subst h1; subst h2; subst h3
        obtain ⟨M, hM1, hM2, hM3⟩ := ih q2.1 q2.2.1 q2.2.2 (by rw [hs2])
        refine ⟨M, by rw [hM1]; simp, hM2, ?_⟩
        intro s hsne hsuf
        rw [List.suffix_cons_iff] at hsuf
        cases hsuf with
        | inl he =>
          rw [he, show (c :: q2.1) ++ M = c :: cs from by rw [hM1]; simp]
          exact hm
        | inr hsuf2 => exact hM3 s hsne hsuf2

theorem afterLastNl_prefix (w : List Char) :
    ∃ w₁, w = w₁ ++ afterLastNl w := by
  refine ⟨(w.reverse.dropWhile notNl).reverse, ?_⟩
  unfold afterLastNl
  rw [← List.reverse_append, List.takeWhile_append_dropWhile, List.reverse_reverse]

theorem takeWhile_stops (p : Char → Bool) (Y : List Char) : ∀ z : List Char,
    (∃ c ∈ z, p c = false) →
    (z ++ Y).takeWhile p = z.takeWhile p ∧
    (z ++ Y).dropWhile p = z.dropWhile p ++ Y := by
  intro z
  induction z with
  | nil =>
    intro h
    obtain ⟨c, hc, _⟩ := h
    cases hc
  | cons d z' ih =>
    intro h
    by_cases hd : p d = true
    · obtain ⟨c, hc, hpc⟩ := h
      have hcz : c ∈ z' := by
        rcases List.mem_cons.mp hc with rfl | hmem
        · exact absurd (hd.symm.trans hpc) (by decide)
        · exact hmem
      obtain ⟨ih1, ih2⟩ := ih ⟨c, hcz, hpc⟩
      constructor
      · rw [List.cons_append, List.takeWhile_cons, if_pos hd,
          List.takeWhile_cons, if_pos hd, ih1]
      · rw [List.cons_append, List.dropWhile_cons, if_pos hd,
          List.dropWhile_cons, if_pos hd, ih2]
    · constructor
      · rw [List.cons_append, List.takeWhile_cons, if_neg hd,
          List.takeWhile_cons, if_neg hd]
      · rw [List.cons_append, List.dropWhile_cons, if_neg hd,
          List.dropWhile_cons, if_neg hd]
        simp

theorem tryMatchAt_some_shape (M b a : List Char)
    (h : tryMatchAt M = some (b, a)) :
    ∃ Y, M = FENCE_OPEN ++ Y ∧ ∃ u v, Y = u ++ (FENCE_CLOSE ++ v) := by
  unfold tryMatchAt at h
  by_cases hsw : listStartsWith FENCE_OPEN M = true
  · rw [if_pos hsw] at h
    obtain ⟨Y, hY⟩ := startsWith_ex FENCE_OPEN M hsw
    refine ⟨Y, hY, ?_⟩
    cases hdw : dropFenceWs (M.drop FENCE_OPEN.length) with
    | none =>
      simp only [hdw] at h
      exact Option.noConfusion h
    | some rest =>
      simp only [hdw] at h
      have hre := splitFirstOcc_eq FENCE_CLOSE rest b a h
      unfold dropFenceWs at hdw
      by_cases hnl : '\n' ∈ (M.drop FENCE_OPEN.length).takeWhile isPySpace
      · rw [if_pos hnl] at hdw
        injection hdw with hdw'
        have hYd : M.drop FENCE_OPEN.length = Y := by rw [hY, List.drop_left]
        obtain ⟨w₁, hw₁⟩ :=
          afterLastNl_prefix ((M.drop FENCE_OPEN.length).takeWhile isPySpace)
        refine ⟨w₁ ++ b, a, ?_⟩
        rw [← hYd]
        rw [show M.drop FENCE_OPEN.length =
          (M.drop FENCE_OPEN.length).takeWhile isPySpace ++
          (M.drop FENCE_OPEN.length).dropWhile isPySpace from
          (List.takeWhile_append_dropWhile _ _).symm]
        rw [hw₁]
        simp only [List.append_assoc]
        rw [hdw', hre]
        simp [List.append_assoc]
      · rw [if_neg hnl] at hdw
        exact Option.noConfusion hdw
  · rw [if_neg hsw] at h
    exact Option.noConfusion h

theorem tryMatchAt_none_transfer (s Y₁ Y₂ : List Char) (hs : s ≠ [])
    (c1 : ∃ u v, Y₁ = u ++ (FENCE_CLOSE ++ v))
    (hnone : tryMatchAt (s ++ (FENCE_OPEN ++ Y₁)) = none) :
    tryMatchAt (s ++ (FENCE_OPEN ++ Y₂)) = none := by
  have hlen : FENCE_OPEN.length ≤ (s ++ FENCE_OPEN).length := by simp
  have hswt := startsWith_trunc FENCE_OPEN (s ++ FENCE_OPEN) Y₁ Y₂ hlen
  have hdropY : ∀ Y : List Char,
      (s ++ (FENCE_OPEN ++ Y)).drop FENCE_OPEN.length =
      (s ++ FENCE_OPEN).drop FENCE_OPEN.length ++ Y := by
    intro Y
    rw [← List.append_assoc, List.drop_append_eq_append_drop]
    have hz0 : FENCE_OPEN.length - (s ++ FENCE_OPEN).length = 0 := by simp
    rw [hz0, List.drop_zero]
  have hzmem : ∃ c ∈ (s ++ FENCE_OPEN).drop FENCE_OPEN.length,
      isPySpace c = false := by
    obtain ⟨c0, s', rfl⟩ := List.exists_cons_of_ne_nil hs
    have hmem : ∀ k < 14, 't' ∈ FENCE_OPEN.drop k := by decide
    refine ⟨'t', ?_, by decide⟩
    rw [List.drop_append_eq_append_drop]
    apply List.mem_append_right
    have h14 : FENCE_OPEN.length = 14 := rfl
    exact hmem _ (by rw [h14]; simp [List.length_cons]; omega)
  by_cases hb : listStartsWith FENCE_OPEN (s ++ (FENCE_OPEN ++ Y₂)) = true
  · unfold tryMatchAt
    rw [if_pos hb, hdropY Y₂]
    obtain ⟨ht2, hd2⟩ := takeWhile_stops isPySpace Y₂ _ hzmem
    unfold dropFenceWs
    rw [ht2, hd2]
    by_cases hw : '\n' ∈ ((s ++ FENCE_OPEN).drop FENCE_OPEN.length).takeWhile
        isPySpace
    · exfalso
      have hb1 : listStartsWith FENCE_OPEN (s ++ (FENCE_OPEN ++ Y₁)) = true := by
        rw [← List.append_assoc] at hb ⊢
        rw [hswt]
        exact hb
      unfold tryMatchAt at hnone
      rw [if_pos hb1, hdropY Y₁] at hnone
      obtain ⟨ht1, hd1⟩ := takeWhile_stops isPySpace Y₁ _ hzmem
      unfold dropFenceWs at hnone
      rw [ht1, hd1, if_pos hw] at hnone
      obtain ⟨u, v, hu⟩ := c1
      obtain ⟨r, hr⟩ := splitFirstOcc_some_of_infix FENCE_CLOSE (by decide)
        (afterLastNl (((s ++ FENCE_OPEN).drop FENCE_OPEN.length).takeWhile
            isPySpace) ++
          (((s ++ FENCE_OPEN).drop FENCE_OPEN.length).dropWhile isPySpace ++ Y₁))
        (afterLastNl (((s ++ FENCE_OPEN).drop FENCE_OPEN.length).takeWhile
            isPySpace) ++
          (((s ++ FENCE_OPEN).drop FENCE_OPEN.length).dropWhile isPySpace ++ u))
        v (by rw [hu]; simp [List.append_assoc])
      have hnone2 : splitFirstOcc FENCE_CLOSE
          (afterLastNl (((s ++ FENCE_OPEN).drop FENCE_OPEN.length).takeWhile
              isPySpace) ++
            (((s ++ FENCE_OPEN).drop FENCE_OPEN.length).dropWhile isPySpace ++
              Y₁)) = none := hnone
      rw [hr] at hnone2
      exact Option.noConfusion hnone2
    · rw [if_neg hw]
  · unfold tryMatchAt
    rw [if_neg hb]

theorem searchFence_prepend : ∀ (p N b a : List Char),
    tryMatchAt N = some (b, a) →
    (∀ s, s ≠ [] → s <:+ p → tryMatchAt (s ++ N) = none) →
    searchFence (p ++ N) = some (p, b, a) := by
  intro p
  induction p with
  | nil =>
    intro N b a hN _
    have hne : N ≠ [] := by
      intro he
      rw [he] at hN
      exact Option.noConfusion hN
    obtain ⟨c, cs, rfl⟩ := List.exists_cons_of_ne_nil hne
    rw [List.nil_append]
    exact searchFence_head c cs b a hN
  | cons d p' ih =>
    intro N b a hN hnone
    have h0 : tryMatchAt (d :: (p' ++ N)) = none :=
      hnone (d :: p') (List.cons_ne_nil d p') (List.suffix_refl _)
    show searchFence (d :: (p' ++ N)) = _
    unfold searchFence
    rw [h0]
    rw [ih N b a hN (fun s hs hsuf => hnone s hs (hsuf.trans (List.suffix_cons d p')))]

theorem lstripNl_append_suffix : ∀ (p N : List Char), (∃ t, N = '`' :: t) →
    ∃ p₂, lstripNlChars (p ++ N) = p₂ ++ N ∧ p₂ <:+ p := by
  intro p
  induction p with
  | nil =>
    intro N hN
    obtain ⟨t, rfl⟩ := hN
    refine ⟨[], ?_, List.suffix_refl _⟩
    simp only [List.nil_append]
    unfold lstripNlChars
    rw [List.dropWhile_cons, if_neg (by decide)]
  | cons d p' ih =>
    intro N hN
    by_cases hd : d = '\n'
    · subst hd
      obtain ⟨p₂, h1, h2⟩ := ih N hN
      refine ⟨p₂, ?_, h2.trans (List.suffix_cons _ _)⟩
      show lstripNlChars ('\n' :: (p' ++ N)) = _
      unfold lstripNlChars
      rw [List.dropWhile_cons, if_pos (by decide)]
      exact h1
    · refine ⟨d :: p', ?_, List.suffix_refl _⟩
      show lstripNlChars (d :: (p' ++ N)) = (d :: p') ++ N
      unfold lstripNlChars
      rw [List.dropWhile_cons, if_neg (by simp [hd])]
      simp

theorem replace_contract_block_none (text : String) (raw : RawContract)
    (hsf : searchFence text.data = none) :
    replace_contract_block text raw =
      if pyStrip text.data ≠ [] then
        String.mk ((render_contract_block raw).data ++ '\n' :: text.data)
      else String.mk (render_contract_block raw).data := by
  show (match searchFence text.data with
    | some q => String.mk (lstripNlChars (q.1 ++
        rstripNlChars (render_contract_block raw).data ++ q.2.2))
    | none =>
      if pyStrip text.data ≠ [] then
        String.mk ((render_contract_block raw).data ++ '\n' :: text.data)
      else String.mk (render_contract_block raw).data) = _
  rw [hsf]

theorem replace_contract_block_some (text : String) (raw : RawContract)
    (q : List Char × List Char × List Char)
    (hsf : searchFence text.data = some q) :
    replace_contract_block text raw =
      String.mk (lstripNlChars (q.1 ++
        rstripNlChars (render_contract_block raw).data ++ q.2.2)) := by
  show (match searchFence text.data with
    | some q => String.mk (lstripNlChars (q.1 ++
        rstripNlChars (render_contract_block raw).data ++ q.2.2))
    | none =>
      if pyStrip text.data ≠ [] then
        String.mk ((render_contract_block raw).data ++ '\n' :: text.data)
      else String.mk (render_contract_block raw).data) = _
  rw [hsf]

/-- Counterexample to C5 as stated: with empty text and the empty raw table,
`extract_contract (replace_contract_block "" {})` yields a body that parses
to a table with the single key `schema` (value 1), while the raw table has
no fields at all — so the reparsed table does not contain exactly raw's
fields. -/
theorem C5_counterexample :
    ((extract_contract (replace_contract_block "" emptyRawContract)).bind
        (fun b => parse_contract b)) = some [("schema", TomlValue.int 1)] ∧
    rawFields emptyRawContract = [] ∧
    some (rawFields emptyRawContract) ≠
      ((extract_contract (replace_contract_block "" emptyRawContract)).bind
        (fun b => parse_contract b)) := by
  refine ⟨by decide, rfl, by decide⟩

/-- C5 (amended): for every description text and every raw contract table
built from the documented fields whose string values are plain (already in
the section 4.2 normal form), `extract_contract (replace_contract_block
text raw)` returns a body (never `none`) — the rendered lines joined by
newlines — and that body parses to exactly raw's fields with `schema`
defaulted to 1 when absent; this holds both when the text already contains
a wg-contract fenced block and when it contains none. -/
theorem C5_amended_extract_replace (text : String) (raw : RawContract)
    (h : plainRaw raw) :
    extract_contract (replace_contract_block text raw) =
      some (String.mk (joinNl (renderLines raw))) ∧
    parse_contract (String.mk (joinNl (renderLines raw))) =
      some (toTable raw) := by
  refine ⟨?_, parse_joinNl raw h⟩
  cases hsf : searchFence text.data with
  | none =>
    rw [replace_contract_block_none text raw hsf]
    by_cases hst : pyStrip text.data ≠ []
    · rw [if_pos hst]
      unfold extract_contract
      rw [show (String.mk ((render_contract_block raw).data ++
        '\n' :: text.data)).data =
        (render_contract_block raw).data ++ '\n' :: text.data from rfl]
      rw [searchFence_newBlock raw ('\n' :: text.data)]
      show some (String.mk (pyStrip (joinNl (renderLines raw)))) = _
      rw [pyStrip_joinNl_renderLines]
    · rw [if_neg hst]
      unfold extract_contract
      rw [show (String.mk (render_contract_block raw).data).data =
        (render_contract_block raw).data ++ ([] : List Char) from by simp]
      rw [searchFence_newBlock raw []]
      show some (String.mk (pyStrip (joinNl (renderLines raw)))) = _
      rw [pyStrip_joinNl_renderLines]
  | some q =>
    rw [replace_contract_block_some text raw q hsf]
    obtain ⟨M, hM1, hM2, hM3⟩ :=
      searchFence_spec text.data q.1 q.2.1 q.2.2 (by rw [hsf])
    obtain ⟨Y₁, hY₁, u₁, v₁, hc1⟩ := tryMatchAt_some_shape M q.2.1 q.2.2 hM2
    have hNtry : tryMatchAt (rstripNlChars (render_contract_block raw).data ++
        q.2.2) = some (joinNl (renderLines raw), q.2.2) := by
      rw [rstripNl_block]
      have hsh : ("```wg-contract\n".data ++
          ((joinNl (renderLines raw) ++ ['\n']) ++ "```".data)) ++ q.2.2 =
          "```wg-contract\n".data ++ ((joinNl (renderLines raw) ++ ['\n']) ++
            ('`' :: '`' :: '`' :: q.2.2)) := by
        have h7 : "```".data = ['`', '`', '`'] := rfl
        rw [h7]
        simp [List.append_assoc, List.cons_append]
      rw [hsh]
      exact tryMatchAt_block_core raw q.2.2
    have hNshape : rstripNlChars (render_contract_block raw).data ++ q.2.2 =
        FENCE_OPEN ++ ('\n' :: (joinNl (renderLines raw) ++
          ('\n' :: '`' :: '`' :: '`' :: q.2.2))) := by
      rw [rstripNl_block]
      have h1 : "```wg-contract\n".data = FENCE_OPEN ++ ['\n'] := rfl
      have h7 : "```".data = ['`', '`', '`'] := rfl
      rw [h1, h7]
      simp [List.append_assoc, List.cons_append, List.singleton_append]
    have hY₂c : ∃ u v, ('\n' :: (joinNl (renderLines raw) ++
        ('\n' :: '`' :: '`' :: '`' :: q.2.2))) = u ++ (FENCE_CLOSE ++ v) := by
      refine ⟨'\n' :: joinNl (renderLines raw), q.2.2, ?_⟩
      have hFC : FENCE_CLOSE = ['\n', '`', '`', '`'] := rfl
      rw [hFC]
      simp [List.append_assoc, List.cons_append]
    have hassoc : q.1 ++ rstripNlChars (render_contract_block raw).data ++
        q.2.2 = q.1 ++ (rstripNlChars (render_contract_block raw).data ++
        q.2.2) := List.append_assoc _ _ _
    rw [hassoc]
    have htick : ∃ t, rstripNlChars (render_contract_block raw).data ++
        q.2.2 = '`' :: t := by
      refine ⟨"``wg-contract".data ++ ('\n' :: (joinNl (renderLines raw) ++
        ('\n' :: '`' :: '`' :: '`' :: q.2.2))), ?_⟩
      rw [hNshape]
      rfl
    obtain ⟨p₂, hp₂, hp₂suf⟩ := lstripNl_append_suffix q.1 _ htick
    rw [hp₂]
    unfold extract_contract
    rw [show (String.mk (p₂ ++ (rstripNlChars (render_contract_block raw).data ++
      q.2.2))).data = p₂ ++ (rstripNlChars (render_contract_block raw).data ++
      q.2.2) from rfl]
    have hnp : ∀ s, s ≠ [] → s <:+ p₂ →
        tryMatchAt (s ++ (rstripNlChars (render_contract_block raw).data ++
          q.2.2)) = none := by
      intro s hsne hsuf
      have hold : tryMatchAt (s ++ M) = none := hM3 s hsne (hsuf.trans hp₂suf)
      rw [hY₁] at hold
      rw [hNshape]
      exact tryMatchAt_none_transfer s Y₁ _ hsne ⟨u₁, v₁, hc1⟩ hold
    rw [searchFence_prepend p₂ _ _ _ hNtry hnp]
    show some (String.mk (pyStrip (joinNl (renderLines raw)))) = _
    rw [pyStrip_joinNl_renderLines]

/-- Witness for C5 (amended) at a concrete input: a plain description with
no fenced block and the fully-populated sample raw table. -/
theorem C5_amended_extract_replace_witness :
    extract_contract (replace_contract_block "Fix the widget" sampleRaw) =
      some (String.mk (joinNl (renderLines sampleRaw))) ∧
    parse_contract (String.mk (joinNl (renderLines sampleRaw))) =
      some (toTable sampleRaw) :=
  C5_amended_extract_replace "Fix the widget" sampleRaw sampleRaw_plain

end Coredrift
